import Mathlib

/-!
Verification development for the scraparoni extraction engine
(`scraparoni/extractor.py` and `scraparoni/core.py`).

Strings are modelled as lists of characters (`Str`).  Python runtime values
appearing in a pydantic `model_dump()` are modelled by `PyVal` (numbers are
restricted to integers; floats are outside the modelled fragment).  Ratios
that CPython computes with float division (`matches / len(keywords)`,
`none_count / len(values)`) are modelled with exact rationals; for the small
counts involved the two agree.
-/

set_option maxHeartbeats 1000000

abbrev Str := List Char

/-- Model of a Python value as produced by `BaseModel.model_dump()`:
`None`, `str`, `int`, `bool`, `list`, `dict` (numbers restricted to `int`). -/
inductive PyVal where
  | null
  | str (s : Str)
  | int (n : Int)
  | bool (b : Bool)
  | list (xs : List PyVal)
  | dict (kvs : List (Str × PyVal))

/-- A `model_dump()` result: the top-level mapping from field name to value. -/
abbrev PyDict := List (Str × PyVal)

/-- Python truthiness of a modelled value (`bool(v)`). -/
def pyTruthy : PyVal → Bool
  | .null => false
  | .str s => !s.isEmpty
  | .int n => n != 0
  | .bool b => b
  | .list xs => !xs.isEmpty
  | .dict kvs => !kvs.isEmpty

/-- Python `v == ""` (only the empty string compares equal to `""`). -/
def beqEmptyStr : PyVal → Bool
  | .str [] => true
  | _ => false

/-- Python `v == []` (only an empty list compares equal to `[]`). -/
def beqEmptyList : PyVal → Bool
  | .list [] => true
  | _ => false

/-- Python `v == {}` (only an empty dict compares equal to `{}`). -/
def beqEmptyDict : PyVal → Bool
  | .dict [] => true
  | _ => false

/-- Python `v is None`. -/
def isNoneB : PyVal → Bool
  | .null => true
  | _ => false

/-- `ScraparoniExtractor._count_data_items`: for each field, a list value
contributes `len([item for item in value if item and item != {} and item != []])`,
any other value contributes 1 when `value and value != "" and value != {} and value != []`. -/
def countDataItems : PyDict → Nat
  | [] => 0
  | (_, v) :: rest =>
    (match v with
     | .list xs =>
       (xs.filter (fun item =>
         pyTruthy item && !(beqEmptyDict item) && !(beqEmptyList item))).length
     | _ =>
       if pyTruthy v && !(beqEmptyStr v) && !(beqEmptyDict v) && !(beqEmptyList v)
       then 1 else 0)
    + countDataItems rest

/-- A field value counted as empty by `Scraparoni._is_empty_extraction`:
`v is None or v == "" or v == [] or v == {}`. -/
def emptyFieldB (v : PyVal) : Bool :=
  isNoneB v || beqEmptyStr v || beqEmptyList v || beqEmptyDict v

/-- `Scraparoni._is_empty_extraction`: true when there are no values, else
true when `none_count / len(values) >= 0.8` (float division modelled exactly
over ℚ). -/
def isEmptyExtraction (data : PyDict) : Bool :=
  if (data.map Prod.snd).isEmpty then true
  else decide ((4 : ℚ)/5 ≤
    ((data.map Prod.snd).countP emptyFieldB : ℚ) / ((data.map Prod.snd).length : ℚ))

/- ### Spec-side definitions (written from the claims' words, for comparison) -/

/-- From C4's words: a scalar is a non-empty leaf when it is not null and not
the empty string. -/
def nonNullNonEmptyStr : PyVal → Bool
  | .null => false
  | .str s => !s.isEmpty
  | _ => true

/-- From C4's words: count of non-empty leaf values — each scalar field
contributes 1 exactly when not null and not the empty string, each list field
contributes the number of its non-empty elements. -/
def specLeafCountC4 (data : PyDict) : Nat :=
  (data.map (fun kv =>
    match kv.2 with
    | .list xs => xs.countP nonNullNonEmptyStr
    | v => if nonNullNonEmptyStr v then 1 else 0)).sum

/-- Amended C4: each non-list field contributes 1 exactly when it is truthy
(not null, not False, not zero, not an empty string/list/mapping); each list
field contributes the number of its truthy elements. -/
def truthyLeafCount (data : PyDict) : Nat :=
  (data.map (fun kv =>
    match kv.2 with
    | .list xs => xs.countP pyTruthy
    | v => if pyTruthy v then 1 else 0)).sum

/-- From C8's words: true when there are zero top-level fields, otherwise true
exactly when the number of null/empty-string/empty-list/empty-mapping fields
is at least 80% of the total field count (stated with integer arithmetic). -/
def specIsEmptyC8 (data : PyDict) : Bool :=
  if (data.map Prod.snd).isEmpty then true
  else decide (4 * (data.map Prod.snd).length ≤ 5 * (data.map Prod.snd).countP emptyFieldB)

/- ### Substring search (shared by chunk scoring and the JSON tag parser) -/

/-- `leadsWith pat s` is true when `pat` occurs at the very start of `s`. -/
def leadsWith : Str → Str → Bool
  | [], _ => true
  | _ :: _, [] => false
  | c :: p, d :: s => c = d && leadsWith p s

/-- Index of the first occurrence of `pat` as a contiguous substring of `s`
(`Option.none` when there is none). -/
def strFindSub (pat : Str) : Str → Option Nat
  | [] => if leadsWith pat [] then some 0 else Option.none
  | c :: t =>
    if leadsWith pat (c :: t) then some 0
    else (strFindSub pat t).map (· + 1)

/-- Python's `pat in s` substring test. -/
def containsSub (pat s : Str) : Bool := (strFindSub pat s).isSome

/- ### Chunk splitting (`_create_chunks`) -/

/-- Python slice `text[a:b]` (step 1): negative indices count from the end,
then both bounds are clamped to `[0, len]`. -/
def pySlice (text : Str) (a b : Int) : Str :=
  let n : Int := text.length
  let i := (if a < 0 then max 0 (n + a) else min a n).toNat
  let j := (if b < 0 then max 0 (n + b) else min b n).toNat
  (text.take j).drop i

/-- The while-loop of `_create_chunks`, with explicit fuel: appends
`text[start:start+chunk_size]` and advances `start` by `chunk_size - overlap`
while `start < len(text)`.  `Option.none` means the fuel ran out, i.e. the
Python loop has not terminated within `fuel` iterations. -/
def createChunksAux (text : Str) (chunkSize overlap : Int) : Nat → Int → Option (List Str)
  | 0, _ => Option.none
  | fuel + 1, start =>
    if start < (text.length : Int) then
      match createChunksAux text chunkSize overlap fuel (start + (chunkSize - overlap)) with
      | Option.none => Option.none
      | some rest => some (pySlice text start (start + chunkSize) :: rest)
    else some []

/-- `_create_chunks(text, chunk_size, overlap)`.  `text.length + 1` rounds of
fuel are enough whenever `overlap < chunk_size`; when the Python loop would
not terminate, the result is `Option.none`. -/
def createChunks (text : Str) (chunkSize overlap : Int) : Option (List Str) :=
  createChunksAux text chunkSize overlap (text.length + 1) 0

/-- Reference description of the chunk sequence in the well-behaved case
(`d = chunkSize - overlap > 0`): windows of length `z` starting every `d`
characters while the start is inside the text. -/
def chunksFrom (text : Str) (z d : Nat) (start : Nat) : List Str :=
  if _h : start < text.length ∧ 0 < d then
    (text.drop start).take z :: chunksFrom text z d (start + d)
  else []
  termination_by text.length - start
  decreasing_by omega

/-- The mode decision at the top of `extract`: the chunked path is taken iff
`len(html_content) > max_length` and `smart_chunking` is on. -/
def usesChunkedPath (doc : Str) (maxLen : Nat) (smart : Bool) : Bool :=
  !(decide (doc.length ≤ maxLen)) && smart

/- ### Keywords (`_extract_keywords_from_schema`) -/

/-- A regex word character (`\w`) for the modelled alphabet. -/
def wordChar (c : Char) : Bool := c.isAlphanum || c = '_'

/-- Helper for `wordTokens`: `acc` is the current (reversed) run of word
characters. -/
def wordTokensAux : Str → Str → List Str
  | [], acc => if acc.isEmpty then [] else [acc.reverse]
  | c :: rest, acc =>
    if wordChar c then wordTokensAux rest (c :: acc)
    else if acc.isEmpty then wordTokensAux rest []
    else acc.reverse :: wordTokensAux rest []

/-- `re.findall(r'\w+', s)`: the maximal runs of word characters of `s`,
in order. -/
def wordTokens (s : Str) : List Str := wordTokensAux s []

/-- Python `s.lower()` for the modelled alphabet. -/
def lowerStr (s : Str) : Str := s.map Char.toLower

/-- `_extract_keywords_from_schema`: a schema is modelled by its `properties`
mapping, each field name paired with its description (`""` when absent).  For
each field append the lower-cased name and the word tokens of the lower-cased
description; finally deduplicate (`list(set(keywords))`, modelled as a
duplicate-free list with the same members). -/
def extractKeywordsFromSchema (props : List (Str × Str)) : List Str :=
  (props.foldl (fun acc p => acc ++ (lowerStr p.1 :: wordTokens (lowerStr p.2))) []).dedup

/- ### Chunk scoring and the chunked-path loop (`_extract_chunked`) -/

/-- `_score_chunk_relevance`: keyword hit count over keyword count (0 for an
empty keyword list).  Python computes the ratio in floating point; it is
modelled exactly over ℚ. -/
def scoreChunkRelevance (chunk : Str) (keywords : List Str) : ℚ :=
  if keywords.isEmpty then 0
  else (keywords.countP (fun k => containsSub k (lowerStr chunk)) : ℚ) / (keywords.length : ℚ)

/-- One entry of `scored_chunks`: `(score, original index, chunk)`. -/
structure Scored where
  score : ℚ
  idx : Nat
  chunk : Str

/-- `scored_chunks` before sorting: each chunk scored and paired with its
enumeration index. -/
def scoreChunks (keywords : List Str) (chunks : List Str) : List Scored :=
  chunks.enum.map fun p => ⟨scoreChunkRelevance p.2 keywords, p.1, p.2⟩

/-- The order produced by `scored_chunks.sort(reverse=True, key=lambda x: x[0])`:
descending score; Python's sort is stable, so entries with equal scores stay in
original (index) order. -/
def scoredLE (a b : Scored) : Prop :=
  b.score < a.score ∨ (a.score = b.score ∧ a.idx ≤ b.idx)

instance : DecidableRel scoredLE := fun a b => by unfold scoredLE; infer_instance

instance : IsTotal Scored scoredLE where
  total a b := by
    unfold scoredLE
    rcases lt_trichotomy a.score b.score with h | h | h
    · exact Or.inr (Or.inl h)
    · rcases Nat.le_total a.idx b.idx with h2 | h2
      · exact Or.inl (Or.inr ⟨h, h2⟩)
      · exact Or.inr (Or.inr ⟨h.symm, h2⟩)
    · exact Or.inl (Or.inl h)

instance : IsTrans Scored scoredLE where
  trans a b c hab hbc := by
    unfold scoredLE at *
    rcases hab with h1 | ⟨h1, h1i⟩ <;> rcases hbc with h2 | ⟨h2, h2i⟩
    · exact Or.inl (h2.trans h1)
    · exact Or.inl (h2 ▸ h1)
    · exact Or.inl (h1 ▸ h2)
    · exact Or.inr ⟨h1.trans h2, h1i.trans h2i⟩

/-- The sort on line 168 of `extractor.py` (stable descending sort by score,
expressed with the original index as tie-break). -/
def sortScored (l : List Scored) : List Scored := l.insertionSort scoredLE

/-- The scored, sorted chunk list of the chunked path. -/
def scoredSorted (keywords : List Str) (chunks : List Str) : List Scored :=
  sortScored (scoreChunks keywords chunks)

/-- Errors a single-shot extraction can raise: `ValueError` from JSON
recovery, pydantic validation errors, and `IndexError` (for faithfulness of
`scored_chunks[0]` on an empty list).  Message payloads are not modelled. -/
inductive PyErr where
  | valueError
  | validationError
  | indexError

/-- `_extract_single` abstracted: the LLM call, tag parsing and schema
validation are modelled as an opaque function from the chunk text to either a
validated result (its `model_dump()`) or an error. -/
abbrev Oracle := Str → Except PyErr PyDict

/-- Lines 176-200 of `extractor.py`: iterate the sorted chunks, break on the
first score below 0.4, attempt extraction on each remaining chunk, swallow
failures, and keep the result with the strictly largest `_count_data_items`. -/
def chunkedLoop (oracle : Oracle) :
    List Scored → Option PyDict → Nat → Option PyDict × Nat
  | [], best, bestCount => (best, bestCount)
  | s :: rest, best, bestCount =>
    if s.score < 2/5 then (best, bestCount)
    else
      match oracle s.chunk with
      | .error _ => chunkedLoop oracle rest best bestCount
      | .ok r =>
        if bestCount < countDataItems r then
          chunkedLoop oracle rest (some r) (countDataItems r)
        else chunkedLoop oracle rest best bestCount

/-- Instrumentation of the same loop: the chunks on which an extraction
attempt is made (the oracle is consulted), in order. -/
def attemptedChunks (oracle : Oracle) : List Scored → List Scored
  | [] => []
  | s :: rest =>
    if s.score < 2/5 then []
    else
      match oracle s.chunk with
      | .error _ => s :: attemptedChunks oracle rest
      | .ok _ => s :: attemptedChunks oracle rest

/-- Lines 206-213: the final fallback, a single-shot attempt on
`scored_chunks[0][2]` whose outcome (including failure) is returned as is. -/
def fallbackExtract (oracle : Oracle) : List Scored → Except PyErr PyDict
  | [] => .error .indexError
  | s :: _ => oracle s.chunk

/-- `_extract_chunked` given the keyword list and the chunk list: run the
loop; return the best result when `best_result and best_data_count > 0`,
otherwise fall back to the top-scored chunk. -/
def extractChunked (oracle : Oracle) (keywords : List Str) (chunks : List Str) :
    Except PyErr PyDict :=
  match chunkedLoop oracle (scoredSorted keywords chunks) Option.none 0 with
  | (some r, c) =>
    if 0 < c then .ok r else fallbackExtract oracle (scoredSorted keywords chunks)
  | (Option.none, _) => fallbackExtract oracle (scoredSorted keywords chunks)

/-- Predicate for "this chunk's score does not fall below the 0.4 floor". -/
def aboveThreshold (s : Scored) : Bool := !(decide (s.score < 2/5))

/-- Spec-side: the successful results among the attempted chunks, in attempt
order. -/
def successResults (oracle : Oracle) (l : List Scored) : List PyDict :=
  (l.takeWhile aboveThreshold).filterMap fun s => (oracle s.chunk).toOption

/-- Spec-side: the largest `_count_data_items` value among a list of results
(0 for an empty list). -/
def maxCounts (rs : List PyDict) : Nat := (rs.map countDataItems).foldr max 0

/-- The loop's accumulator update, as a standalone function. -/
def updBest (p : Option PyDict × Nat) (r : PyDict) : Option PyDict × Nat :=
  if p.2 < countDataItems r then (some r, countDataItems r) else p

/-- A concrete oracle that always succeeds with one populated field (used to
exercise the theorems on concrete inputs). -/
def constOkOracle : Oracle := fun _ => .ok [(['x'], .str ['v'])]

/-- A concrete oracle that always fails with a `ValueError`. -/
def constErrOracle : Oracle := fun _ => .error .valueError

/- ### JSON values and the modelled fragment of Python's `json` module -/

/-- A JSON value.  Numbers are restricted to integers; floats are outside the
modelled fragment.  Strings are over the printable subset for which
`json.dumps` needs no `\uXXXX` escapes. -/
inductive JVal where
  | jnull
  | jbool (b : Bool)
  | jint (n : Int)
  | jstr (s : Str)
  | jarr (elems : List JVal)
  | jobj (membs : List (Str × JVal))

/-- String-character serialization: `json.dumps` escapes `"` and `\`. -/
def escChar (c : Char) : Str :=
  if c = '"' ∨ c = '\\' then ['\\', c] else [c]

/-- Serialization of a string body. -/
def escStr (s : Str) : Str := s.flatMap escChar

/-- Serialization of a JSON string, quotes included. -/
def jserStr (s : Str) : Str := '"' :: escStr s ++ ['"']

/-- The decimal digit characters. -/
def digitChar : Nat → Char
  | 0 => '0' | 1 => '1' | 2 => '2' | 3 => '3' | 4 => '4'
  | 5 => '5' | 6 => '6' | 7 => '7' | 8 => '8' | _ => '9'

/-- Decimal representation of `n`, most significant digit first (`"0"` for 0). -/
def natChars (n : Nat) : Str :=
  if n = 0 then ['0'] else (Nat.digits 10 n).reverse.map digitChar

/-- Decimal representation of an integer. -/
def jserInt (n : Int) : Str :=
  if n < 0 then '-' :: natChars n.natAbs else natChars n.toNat

mutual
/-- `json.dumps` with its default separators (`", "` between items, `": "`
after keys). -/
def jser : JVal → Str
  | .jnull => ['n', 'u', 'l', 'l']
  | .jbool true => ['t', 'r', 'u', 'e']
  | .jbool false => ['f', 'a', 'l', 's', 'e']
  | .jint n => jserInt n
  | .jstr s => jserStr s
  | .jarr es => '[' :: jserElems es ++ [']']
  | .jobj ms => '\x7b' :: jserMembs ms ++ ['\x7d']
/-- Array items, separated by `", "`. -/
def jserElems : List JVal → Str
  | [] => []
  | [e] => jser e
  | e :: es => jser e ++ ',' :: ' ' :: jserElems es
/-- Object members, `"key": value` separated by `", "`. -/
def jserMembs : List (Str × JVal) → Str
  | [] => []
  | [(k, v)] => jserStr k ++ ':' :: ' ' :: jser v
  | (k, v) :: ms => jserStr k ++ ':' :: ' ' :: jser v ++ ',' :: ' ' :: jserMembs ms
end

mutual
/-- Fuel bound used to drive the parser through a serialized value. -/
def jsize : JVal → Nat
  | .jnull => 1
  | .jbool _ => 1
  | .jint _ => 1
  | .jstr _ => 1
  | .jarr es => 1 + jsizeElems es
  | .jobj ms => 1 + jsizeMembs ms
def jsizeElems : List JVal → Nat
  | [] => 0
  | e :: es => 1 + jsize e + jsizeElems es
def jsizeMembs : List (Str × JVal) → Nat
  | [] => 0
  | (_, v) :: ms => 1 + jsize v + jsizeMembs ms
end

/-- JSON whitespace. -/
def isWsB (c : Char) : Bool := c = ' ' || c = '\t' || c = '\n' || c = '\r'

/-- Leading-whitespace skipping, as done by `json.loads` between tokens. -/
def skipWs (s : Str) : Str := s.dropWhile isWsB

/-- Python's `str.strip()` restricted to the modelled whitespace. -/
def stripChars (s : Str) : Str :=
  ((s.dropWhile isWsB).reverse.dropWhile isWsB).reverse

/-- JSON string escape codes (`\uXXXX` is outside the modelled fragment). -/
def unesc (c : Char) : Option Char :=
  if c = '"' then some '"'
  else if c = '\\' then some '\\'
  else if c = '/' then some '/'
  else if c = 'n' then some '\n'
  else if c = 't' then some '\t'
  else if c = 'r' then some '\r'
  else if c = 'b' then some (Char.ofNat 8)
  else if c = 'f' then some (Char.ofNat 12)
  else Option.none

/-- Parse a string body up to the closing quote (the opening quote has been
consumed); fails on an unterminated string. -/
def parseStrBody : Str → Option (Str × Str)
  | [] => Option.none
  | c :: r =>
    if c = '"' then some ([], r)
    else if c = '\\' then
      match r with
      | [] => Option.none
      | e :: r2 =>
        match unesc e with
        | some c2 => (parseStrBody r2).map fun p => (c2 :: p.1, p.2)
        | Option.none => Option.none
    else (parseStrBody r).map fun p => (c :: p.1, p.2)

/-- Consume the leading run of decimal digits (as digit values). -/
def parseDigits : Str → List Nat × Str
  | [] => ([], [])
  | c :: r =>
    if c.isDigit then
      ((c.toNat - 48) :: (parseDigits r).1, (parseDigits r).2)
    else ([], c :: r)

/-- Big-endian digit-list to number. -/
def digitsToNat (l : List Nat) : Nat := l.foldl (fun a d => 10 * a + d) 0

/-- Parse a natural number token (at least one digit). -/
def parseNatTok (s : Str) : Option (Nat × Str) :=
  match parseDigits s with
  | ([], _) => Option.none
  | (ds, r) => some (digitsToNat ds, r)

/-- Parse an optionally-signed integer token. -/
def parseIntTok : Str → Option (Int × Str)
  | [] => Option.none
  | c :: r =>
    if c = '-' then (parseNatTok r).map fun p => (-(p.1 : Int), p.2)
    else (parseNatTok (c :: r)).map fun p => ((p.1 : Int), p.2)

mutual
/-- Recursive-descent JSON parser for the modelled fragment (the grammar
accepted by `json.loads` restricted to integer numbers and escape-free
`\uXXXX`-less strings), with explicit fuel. -/
def parseVal : Nat → Str → Option (JVal × Str)
  | 0, _ => Option.none
  | fuel + 1, s =>
    match skipWs s with
    | [] => Option.none
    | c :: r =>
      if c = 'n' then
        if leadsWith ['u', 'l', 'l'] r then some (.jnull, r.drop 3) else Option.none
      else if c = 't' then
        if leadsWith ['r', 'u', 'e'] r then some (.jbool true, r.drop 3) else Option.none
      else if c = 'f' then
        if leadsWith ['a', 'l', 's', 'e'] r then some (.jbool false, r.drop 4)
        else Option.none
      else if c = '"' then
        (parseStrBody r).map fun p => (.jstr p.1, p.2)
      else if c = '[' then
        match skipWs r with
        | ']' :: r2 => some (.jarr [], r2)
        | _ => (parseElems fuel r).map fun p => (.jarr p.1, p.2)
      else if c = '\x7b' then
        match skipWs r with
        | '\x7d' :: r2 => some (.jobj [], r2)
        | _ => (parseMembs fuel r).map fun p => (.jobj p.1, p.2)
      else if c = '-' ∨ c.isDigit then
        (parseIntTok (c :: r)).map fun p => (.jint p.1, p.2)
      else Option.none
/-- One-or-more array items separated by `,`, ended by `]`. -/
def parseElems : Nat → Str → Option (List JVal × Str)
  | 0, _ => Option.none
  | fuel + 1, s =>
    match parseVal fuel s with
    | Option.none => Option.none
    | some (v, r) =>
      match skipWs r with
      | ',' :: r2 => (parseElems fuel r2).map fun p => (v :: p.1, p.2)
      | ']' :: r2 => some ([v], r2)
      | _ => Option.none
/-- One-or-more object members separated by `,`, ended by `}`. -/
def parseMembs : Nat → Str → Option (List (Str × JVal) × Str)
  | 0, _ => Option.none
  | fuel + 1, s =>
    match skipWs s with
    | '"' :: r =>
      match parseStrBody r with
      | Option.none => Option.none
      | some (k, r1) =>
        match skipWs r1 with
        | ':' :: r2 =>
          match parseVal fuel r2 with
          | Option.none => Option.none
          | some (v, r3) =>
            match skipWs r3 with
            | ',' :: r4 => (parseMembs fuel r4).map fun p => ((k, v) :: p.1, p.2)
            | '\x7d' :: r4 => some ([(k, v)], r4)
            | _ => Option.none
        | _ => Option.none
    | _ => Option.none
end

/-- `json.loads`: parse a complete document; only trailing whitespace may
remain. -/
def jparse (s : Str) : Option JVal :=
  match parseVal (s.length + 1) s with
  | some (v, rest) => if skipWs rest = [] then some v else Option.none
  | Option.none => Option.none

/-- The opening tag of the designated pair. -/
def openTagS : Str := ['<', 'j', 's', 'o', 'n', '>']

/-- The closing tag of the designated pair. -/
def closeTagS : Str := ['<', '/', 'j', 's', 'o', 'n', '>']

/-- Wrap a serialized payload in the designated tag pair. -/
def wrapJsonTags (s : Str) : Str := openTagS ++ s ++ closeTagS

/-- The fallback of `_extract_json_from_tags`: `re.search(r'\x7b.*\x7d', text,
DOTALL)` matches from the first `{` that has a `}` after it (greedily to the
last `}`); equivalently, from the first `{` to the last `}` overall when the
latter comes later.  The span is fed to `json.loads` without stripping. -/
def fallbackBrace (text : Str) : Except PyErr JVal :=
  match text.findIdx? (· = '\x7b'), text.reverse.findIdx? (· = '\x7d') with
  | some i, some k =>
    if i < text.length - 1 - k then
      match jparse ((text.take (text.length - 1 - k + 1)).drop i) with
      | some v => .ok v
      | Option.none => .error .valueError
    else .error .valueError
  | _, _ => .error .valueError

/-- `_extract_json_from_tags`: search case-insensitively for the first
`<json>` with a `</json>` after it (the lazy group takes the first closing
tag), strip the interior and `json.loads` it; with no tag pair, fall back to
the brace span; a located but unparsable candidate raises `ValueError`. -/
def extractJsonFromTags (text : Str) : Except PyErr JVal :=
  match strFindSub openTagS (text.map Char.toLower) with
  | some op =>
    match strFindSub closeTagS ((text.map Char.toLower).drop (op + 6)) with
    | some k =>
      match jparse (stripChars ((text.drop (op + 6)).take k)) with
      | some v => .ok v
      | Option.none => .error .valueError
    | Option.none => fallbackBrace text
  | Option.none => fallbackBrace text

/-- The boundary condition under which number parsing is unambiguous: the
remaining input does not begin with a digit. -/
def numBoundary : Str → Prop
  | [] => True
  | c :: _ => c.isDigit = false

/- ### C4 -/

theorem countDataItems_eq_truthyLeafCount (data : PyDict) :
    countDataItems data = truthyLeafCount data := by
  induction data with
  | nil => rfl
  | cons kv rest ih =>
    obtain ⟨k, v⟩ := kv
    unfold countDataItems truthyLeafCount
    simp only [List.map_cons, List.sum_cons]
    rw [ih]
    unfold truthyLeafCount
    congr 1
    cases v with
    | list xs =>
      simp only [List.countP_eq_length_filter]
      congr 1
      apply List.filter_congr
      intro item _
      cases item with
      | list ys => cases ys <;> simp [pyTruthy, beqEmptyDict, beqEmptyList]
      | dict kvs => cases kvs <;> simp [pyTruthy, beqEmptyDict, beqEmptyList]
      | null => simp [pyTruthy, beqEmptyDict, beqEmptyList]
      | str s => simp [pyTruthy, beqEmptyDict, beqEmptyList]
      | int n => simp [pyTruthy, beqEmptyDict, beqEmptyList]
      | bool b => simp [pyTruthy, beqEmptyDict, beqEmptyList]
    | null => rfl
    | str s => cases s <;> simp [pyTruthy, beqEmptyStr, beqEmptyDict, beqEmptyList]
    | int n => simp [pyTruthy, beqEmptyStr, beqEmptyDict, beqEmptyList]
    | bool b => cases b <;> simp [pyTruthy, beqEmptyStr, beqEmptyDict, beqEmptyList]
    | dict kvs => cases kvs <;> simp [pyTruthy, beqEmptyStr, beqEmptyDict, beqEmptyList]

/-- C4 counterexample: on a result with a single integer field holding `0`,
the code counts 0 non-empty leaves while the claim's definition (not null and
not the empty string) counts 1. -/
theorem c4_counterexample :
    countDataItems [(['n'], PyVal.int 0)] ≠ specLeafCountC4 [(['n'], PyVal.int 0)] := by
  decide

/-- C4 (amended): for every extraction result, `_count_data_items` equals the
count of truthy leaf values: each non-list field contributes 1 exactly when it
is truthy (not null, not False, not zero, not empty), and each list field
contributes the number of its truthy elements. -/
theorem c4_count_data_items_truthy (data : PyDict) :
    countDataItems data = truthyLeafCount data :=
  countDataItems_eq_truthyLeafCount data

/- ### C8 -/

lemma isEmptyExtraction_eq_spec (data : PyDict) :
    isEmptyExtraction data = specIsEmptyC8 data := by
  unfold isEmptyExtraction specIsEmptyC8
  by_cases h : (data.map Prod.snd).isEmpty = true
  · rw [if_pos h, if_pos h]
  · rw [if_neg h, if_neg h]
    have hn : 0 < (data.map Prod.snd).length := by
      cases hvs : data.map Prod.snd with
      | nil => rw [hvs] at h; simp [List.isEmpty] at h
      | cons a t => simp
    have hcast : (0 : ℚ) < ((data.map Prod.snd).length : ℚ) := by exact_mod_cast hn
    rw [decide_eq_decide]
    rw [div_le_div_iff₀ (by norm_num : (0:ℚ) < 5) hcast]
    constructor
    · intro hle
      have h2 : 4 * (data.map Prod.snd).length ≤
          (data.map Prod.snd).countP emptyFieldB * 5 := by exact_mod_cast hle
      omega
    · intro hle
      have h2 : 4 * (data.map Prod.snd).length ≤
          (data.map Prod.snd).countP emptyFieldB * 5 := by omega
      exact_mod_cast h2

/-- C8: `_is_empty_extraction` returns true when the result has zero top-level
fields, and otherwise returns true exactly when the number of top-level fields
whose value is null, empty string, empty list, or empty mapping is at least
80% of the total field count; in particular it returns true when 4 of 5 fields
are empty and false when 3 of 5 are. -/
theorem c8_is_empty_extraction_spec :
    (∀ data : PyDict, isEmptyExtraction data = specIsEmptyC8 data) ∧
    isEmptyExtraction
      [(['a'], .null), (['b'], .str []), (['c'], .list []),
       (['d'], .dict []), (['e'], .str ['x'])] = true ∧
    isEmptyExtraction
      [(['a'], .null), (['b'], .str []), (['c'], .list []),
       (['d'], .str ['y']), (['e'], .str ['x'])] = false := by
  refine ⟨isEmptyExtraction_eq_spec, ?_, ?_⟩
  · rw [isEmptyExtraction_eq_spec]; decide
  · rw [isEmptyExtraction_eq_spec]; decide

/- ### Chunk splitting lemmas -/

lemma pySlice_eq_drop_take (text : Str) (a z : Nat) :
    pySlice text (a : Int) ((a : Int) + (z : Int)) = (text.drop a).take z := by
  simp only [pySlice]
  have hna : ¬((a : Int) < 0) := by omega
  have hnb : ¬((a : Int) + (z : Int) < 0) := by omega
  rw [if_neg hna, if_neg hnb]
  have h1 : (min (a : Int) (text.length : Int)).toNat = min a text.length := by omega
  have h2 : (min ((a : Int) + (z : Int)) (text.length : Int)).toNat
      = min (a + z) text.length := by omega
  rw [h1, h2]
  have h3 : List.take (min (a + z) text.length) text = List.take (a + z) text := by
    rw [← List.take_take, List.take_length]
  rw [h3, List.take_drop]
  by_cases hle : a ≤ text.length
  · rw [min_eq_left hle]
  · rw [min_eq_right (by omega : text.length ≤ a)]
    rw [List.drop_eq_nil_of_le, List.drop_eq_nil_of_le]
    · rw [List.length_take]; omega
    · rw [List.length_take]; omega

lemma createChunksAux_eq_chunksFrom (text : Str) (z o : Nat) (ho : o < z) :
    ∀ (fuel : Nat) (start : Nat), text.length ≤ start + fuel * (z - o) →
      createChunksAux text (z : Int) (o : Int) (fuel + 1) (start : Int)
        = some (chunksFrom text z (z - o) start) := by
  intro fuel
  induction fuel with
  | zero =>
    intro start hle
    simp only [Nat.zero_mul, Nat.add_zero] at hle
    unfold createChunksAux
    rw [if_neg (by omega : ¬((start : Int) < (text.length : Int)))]
    rw [chunksFrom, dif_neg (by omega)]
  | succ fuel ih =>
    intro start hle
    unfold createChunksAux
    by_cases h : start < text.length
    · rw [if_pos (by omega : (start : Int) < (text.length : Int))]
      have hcast : (start : Int) + ((z : Int) - (o : Int)) = ((start + (z - o) : Nat) : Int) := by
        omega
      rw [hcast, ih (start + (z - o)) (by
        have h2 : (fuel + 1) * (z - o) = fuel * (z - o) + (z - o) := by ring
        omega)]
      have hslice : pySlice text (start : Int) ((start : Int) + (z : Int))
          = (text.drop start).take z := pySlice_eq_drop_take text start z
      rw [hslice]
      conv_rhs => rw [chunksFrom]
      rw [dif_pos ⟨h, by omega⟩]
    · rw [if_neg (by omega : ¬((start : Int) < (text.length : Int)))]
      rw [chunksFrom, dif_neg (by omega)]

lemma createChunks_eq_chunksFrom (text : Str) (z o : Nat) (ho : o < z) :
    createChunks text (z : Int) (o : Int) = some (chunksFrom text z (z - o) 0) := by
  unfold createChunks
  have h0 : ((0 : Nat) : Int) = (0 : Int) := rfl
  rw [← h0, createChunksAux_eq_chunksFrom text z o ho text.length 0 (by
    have hd : 1 ≤ z - o := by omega
    calc text.length = text.length * 1 := by omega
    _ ≤ text.length * (z - o) := Nat.mul_le_mul_left _ hd
    _ = 0 + text.length * (z - o) := by omega)]

lemma chunksFrom_eq_cons (text : Str) (z d start : Nat)
    (h : start < text.length) (hd : 0 < d) :
    chunksFrom text z d start
      = (text.drop start).take z :: chunksFrom text z d (start + d) := by
  rw [chunksFrom]
  rw [dif_pos ⟨h, hd⟩]

lemma chunksFrom_eq_nil (text : Str) (z d start : Nat)
    (h : ¬(start < text.length ∧ 0 < d)) :
    chunksFrom text z d start = [] := by
  rw [chunksFrom]
  rw [dif_neg h]

lemma chunksFrom_get (text : Str) (z d : Nat) :
    ∀ (n start : Nat), text.length - start ≤ n →
      ∀ (i : Nat) (ch : Str), (chunksFrom text z d start)[i]? = some ch →
        ch = (text.drop (start + i * d)).take z ∧ start + i * d < text.length := by
  intro n
  induction n with
  | zero =>
    intro start hle i ch hch
    rw [chunksFrom_eq_nil text z d start (by omega)] at hch
    simp at hch
  | succ n ih =>
    intro start hle i ch hch
    by_cases hd : 0 < d
    · by_cases h : start < text.length
      · rw [chunksFrom_eq_cons text z d start h hd] at hch
        cases i with
        | zero =>
          simp only [List.getElem?_cons_zero, Option.some_inj] at hch
          refine ⟨?_, ?_⟩
          · simp only [Nat.zero_mul, Nat.add_zero]
            exact hch.symm
          · simp only [Nat.zero_mul, Nat.add_zero]
            exact h
        | succ i =>
          simp only [List.getElem?_cons_succ] at hch
          have := ih (start + d) (by omega) i ch hch
          have hmul : (i + 1) * d = i * d + d := by ring
          refine ⟨?_, by have h2 := this.2; omega⟩
          rw [this.1]
          have harg : start + d + i * d = start + (i + 1) * d := by ring
          rw [harg]
      · rw [chunksFrom_eq_nil text z d start (by omega)] at hch
        simp at hch
    · rw [chunksFrom_eq_nil text z d start (by omega)] at hch
      simp at hch

lemma chunksFrom_cover (text : Str) (z d : Nat) (hd : 0 < d) (hdz : d ≤ z) :
    ∀ (n start : Nat), text.length - start ≤ n →
      ∀ p, start ≤ p → p < text.length →
        ∃ (i : Nat) (ch : Str), (chunksFrom text z d start)[i]? = some ch ∧
          start + i * d ≤ p ∧ p < start + i * d + ch.length := by
  intro n
  induction n with
  | zero =>
    intro start hle p hp1 hp2
    omega
  | succ n ih =>
    intro start hle p hp1 hp2
    have hs : start < text.length := by omega
    by_cases hc : p < start + min z (text.length - start)
    · refine ⟨0, (text.drop start).take z, ?_, by omega, ?_⟩
      · rw [chunksFrom_eq_cons text z d start hs hd]
        simp
      · rw [List.length_take, List.length_drop]
        omega
    · have hmin : min z (text.length - start) = z := by omega
      rw [hmin] at hc
      obtain ⟨i, ch, hch, h1, h2⟩ := ih (start + d) (by omega) p (by omega) hp2
      refine ⟨i + 1, ch, ?_, ?_, ?_⟩
      · rw [chunksFrom_eq_cons text z d start hs hd]
        simpa using hch
      · have hmul : (i + 1) * d = i * d + d := by ring
        omega
      · have hmul : (i + 1) * d = i * d + d := by ring
        omega

/- ### C5 -/

/-- C5 counterexample: for the 10-character document with `size 5`, `overlap 3`
the chunk at index 3 (`"6789"`) has length 4 ≠ 5 although it is not the last
chunk (index 4, `"89"`, exists): more than one trailing chunk can be shorter
than `size`. -/
theorem c5_counterexample :
    ¬ ∀ cs, createChunks ("0123456789".toList) 5 3 = some cs →
        ∀ (i : Nat) (ch : Str), cs[i]? = some ch → i + 1 < cs.length →
          ch.length = 5 := by
  intro hall
  have h2 := hall
      ["01234".toList, "23456".toList, "45678".toList, "6789".toList, "89".toList]
      (by rfl) 3 ("6789".toList) (by rfl) (by decide)
  exact absurd h2 (by decide)

/-- C5 (amended): for every document and `0 ≤ o < z`, `_create_chunks`
terminates and yields the windows starting at `0, z-o, 2(z-o), …` while the
start is inside the document; chunk `i` is `text[i*(z-o) : i*(z-o)+z]`, its
length is `min z (len - start)` — so `= z` whenever the window fits and `≤ z`
always, but more than one trailing chunk may be truncated — and the chunk
ranges cover every character position of the document. -/
theorem c5_create_chunks_windows (text : Str) (z o : Nat) (ho : o < z) :
    ∃ cs, createChunks text (z : Int) (o : Int) = some cs ∧
      (∀ (i : Nat) (ch : Str), cs[i]? = some ch →
        ch = (text.drop (i * (z - o))).take z ∧
        i * (z - o) < text.length ∧
        ch.length = min z (text.length - i * (z - o))) ∧
      (∀ p, p < text.length → ∃ (i : Nat) (ch : Str), cs[i]? = some ch ∧
        i * (z - o) ≤ p ∧ p < i * (z - o) + ch.length) := by
  refine ⟨chunksFrom text z (z - o) 0, createChunks_eq_chunksFrom text z o ho, ?_, ?_⟩
  · intro i ch hch
    have hg := chunksFrom_get text z (z - o) text.length 0 (by omega) i ch hch
    have h1 : ch = (text.drop (i * (z - o))).take z := by
      have h0 := hg.1
      rwa [Nat.zero_add] at h0
    refine ⟨h1, by have := hg.2; omega, ?_⟩
    rw [h1, List.length_take, List.length_drop]
  · intro p hp
    obtain ⟨i, ch, hch, h1, h2⟩ :=
      chunksFrom_cover text z (z - o) (by omega) (by omega) text.length 0 (by omega)
        p (by omega) hp
    exact ⟨i, ch, hch, by omega, by omega⟩

theorem c5_create_chunks_windows_witness :
    ∃ cs, createChunks ("0123456789".toList) (5 : Int) (3 : Int) = some cs ∧
      (∀ (i : Nat) (ch : Str), cs[i]? = some ch →
        ch = (("0123456789".toList).drop (i * 2)).take 5 ∧
        i * 2 < ("0123456789".toList).length ∧
        ch.length = min 5 (("0123456789".toList).length - i * 2)) ∧
      (∀ p, p < ("0123456789".toList).length →
        ∃ (i : Nat) (ch : Str), cs[i]? = some ch ∧
          i * 2 ≤ p ∧ p < i * 2 + ch.length) :=
  c5_create_chunks_windows ("0123456789".toList) 5 3 (by decide)

/- ### C9 -/

/-- C9: `_create_chunks` does not enforce `overlap < size`.  On the reachable
input `_create_chunks(text, 1000, 1000)` with a 1001-character text (from
`extract(html, max_length=1000)` on a 1001-character document) the loop never
advances: no amount of fuel makes it terminate, and no error is ever raised —
contradicting the specified fail-fast behaviour. -/
theorem c9_create_chunks_overlap_eq_size_diverges :
    (∀ fuel : Nat,
      createChunksAux (List.replicate 1001 'a') 1000 1000 fuel 0 = Option.none) ∧
    createChunks (List.replicate 1001 'a') 1000 1000 = Option.none := by
  have hmain : ∀ fuel : Nat,
      createChunksAux (List.replicate 1001 'a') 1000 1000 fuel 0 = Option.none := by
    intro fuel
    induction fuel with
    | zero => rfl
    | succ fuel ih =>
      unfold createChunksAux
      rw [if_pos (by rw [List.length_replicate]; norm_num :
        (0 : Int) < ((List.replicate 1001 'a').length : Int))]
      have h : ((0 : Int) + ((1000 : Int) - 1000)) = (0 : Int) := by norm_num
      rw [h, ih]
  exact ⟨hmain, hmain _⟩

/- ### C10 -/

/-- C10: whenever the chunked path is entered (`len(document) > max_length`
and smart chunking on), the document is non-empty; every chunk list
`_create_chunks` can return is non-empty, so the sorted scored list is
non-empty and the fallback's `scored_chunks[0]` access is in bounds — the
fallback is exactly a single-shot attempt on the top-ranked chunk.  When
additionally `max_length > 1000` (the fixed overlap), the split indeed
terminates with a non-empty chunk list.  -/
theorem c10_chunked_fallback_in_bounds (doc : Str) (maxLen : Nat) (smart : Bool)
    (kws : List Str) (h : usesChunkedPath doc maxLen smart = true) :
    doc ≠ [] ∧
    (∀ cs, createChunks doc (maxLen : Int) 1000 = some cs → cs ≠ [] ∧
      ∃ s rest, scoredSorted kws cs = s :: rest ∧
        ∀ oracle : Oracle, fallbackExtract oracle (scoredSorted kws cs) = oracle s.chunk) ∧
    (1000 < maxLen → ∃ cs, createChunks doc (maxLen : Int) 1000 = some cs ∧ cs ≠ []) := by
  have hlen : maxLen < doc.length := by
    by_contra hcon
    unfold usesChunkedPath at h
    rw [decide_eq_true (by omega : doc.length ≤ maxLen)] at h
    simp at h
  have hnonnil : (∀ cs, createChunks doc (maxLen : Int) 1000 = some cs → cs ≠ []) := by
    intro cs hcs
    unfold createChunks createChunksAux at hcs
    rw [if_pos (by
      have : 0 < doc.length := by omega
      omega : (0 : Int) < (doc.length : Int))] at hcs
    cases hinner : createChunksAux doc (maxLen : Int) 1000 doc.length
        (0 + ((maxLen : Int) - 1000)) with
    | none => rw [hinner] at hcs; exact absurd hcs (by simp)
    | some rest =>
      rw [hinner] at hcs
      simp only [Option.some_inj] at hcs
      rw [← hcs]
      simp
  refine ⟨?_, ?_, ?_⟩
  · intro hnil
    rw [hnil] at hlen
    simp at hlen
  · intro cs hcs
    refine ⟨hnonnil cs hcs, ?_⟩
    have hlen2 : (scoredSorted kws cs).length = cs.length := by
      unfold scoredSorted sortScored scoreChunks
      rw [List.length_insertionSort, List.length_map, List.enum_length]
    have : scoredSorted kws cs ≠ [] := by
      intro hnil
      have := hnonnil cs hcs
      rw [hnil] at hlen2
      simp at hlen2
      exact this (List.length_eq_zero.mp hlen2.symm)
    obtain ⟨s, rest, hsr⟩ := List.exists_cons_of_ne_nil this
    refine ⟨s, rest, hsr, fun oracle => ?_⟩
    rw [hsr]
    rfl
  · intro hover
    refine ⟨chunksFrom doc maxLen (maxLen - 1000) 0,
      createChunks_eq_chunksFrom doc maxLen 1000 hover, ?_⟩
    rw [chunksFrom_eq_cons doc maxLen (maxLen - 1000) 0 (by omega) (by omega)]
    simp

theorem c10_chunked_fallback_in_bounds_witness :
    usesChunkedPath ['a', 'b'] 1 true = true ∧
    ((['a', 'b'] : Str) ≠ [] ∧
     (∀ cs, createChunks ['a', 'b'] ((1 : Nat) : Int) 1000 = some cs → cs ≠ [] ∧
       ∃ s rest, scoredSorted [] cs = s :: rest ∧
         ∀ oracle : Oracle, fallbackExtract oracle (scoredSorted [] cs) = oracle s.chunk) ∧
     (1000 < 1 → ∃ cs, createChunks ['a', 'b'] ((1 : Nat) : Int) 1000 = some cs ∧ cs ≠ [])) :=
  ⟨by decide, c10_chunked_fallback_in_bounds ['a', 'b'] 1 true [] (by decide)⟩

/- ### Chunked-loop lemmas -/

lemma attemptedChunks_eq_takeWhile (oracle : Oracle) (l : List Scored) :
    attemptedChunks oracle l = l.takeWhile aboveThreshold := by
  induction l with
  | nil => rfl
  | cons s rest ih =>
    unfold attemptedChunks
    by_cases h : s.score < 2/5
    · rw [if_pos h, List.takeWhile_cons]
      rw [show aboveThreshold s = false by
        unfold aboveThreshold; rw [decide_eq_true h]; rfl]
      simp
    · rw [if_neg h, List.takeWhile_cons]
      rw [show aboveThreshold s = true by
        unfold aboveThreshold; rw [decide_eq_false h]; rfl]
      cases horacle : oracle s.chunk with
      | error e => simp [ih]
      | ok r => simp [ih]

lemma scoredLE_score_le (a b : Scored) (h : scoredLE a b) : b.score ≤ a.score := by
  unfold scoredLE at h
  rcases h with h | ⟨h, _⟩
  · exact le_of_lt h
  · exact le_of_eq h.symm

lemma takeWhile_eq_filter_of_sorted (l : List Scored) (hs : l.Sorted scoredLE) :
    l.takeWhile aboveThreshold = l.filter aboveThreshold := by
  induction l with
  | nil => rfl
  | cons s rest ih =>
    rw [List.sorted_cons] at hs
    rw [List.takeWhile_cons, List.filter_cons]
    by_cases h : aboveThreshold s = true
    · rw [h]
      simp only [if_true]
      rw [ih hs.2]
    · rw [Bool.not_eq_true] at h
      rw [h]
      simp only [Bool.false_eq_true, if_false]
      symm
      rw [List.filter_eq_nil_iff]
      intro b hb
      have hle : b.score ≤ s.score := scoredLE_score_le s b (hs.1 b hb)
      have hslow : s.score < 2/5 := by
        by_contra hcon
        unfold aboveThreshold at h
        rw [decide_eq_false hcon] at h
        simp at h
      unfold aboveThreshold
      rw [decide_eq_true (lt_of_le_of_lt hle hslow)]
      simp

lemma chunkedLoop_eq_foldl (oracle : Oracle) :
    ∀ (l : List Scored) (best : Option PyDict) (cnt : Nat),
      chunkedLoop oracle l best cnt
        = (successResults oracle l).foldl updBest (best, cnt) := by
  intro l
  induction l with
  | nil => intro best cnt; rfl
  | cons s rest ih =>
    intro best cnt
    unfold chunkedLoop successResults
    by_cases h : s.score < 2/5
    · rw [if_pos h, List.takeWhile_cons]
      rw [show aboveThreshold s = false by
        unfold aboveThreshold; rw [decide_eq_true h]; rfl]
      rfl
    · have hat : aboveThreshold s = true := by
        unfold aboveThreshold; rw [decide_eq_false h]; rfl
      rw [if_neg h, List.takeWhile_cons, hat]
      rw [if_pos (rfl : true = true), List.filterMap_cons]
      cases horacle : oracle s.chunk with
      | error e =>
        simp only [Except.toOption]
        exact ih best cnt
      | ok r =>
        simp only [Except.toOption, List.foldl_cons]
        by_cases hcr : cnt < countDataItems r
        · rw [if_pos hcr]
          rw [show updBest (best, cnt) r = (some r, countDataItems r) by
            unfold updBest; rw [if_pos hcr]]
          exact ih (some r) (countDataItems r)
        · rw [if_neg hcr]
          rw [show updBest (best, cnt) r = (best, cnt) by
            unfold updBest; rw [if_neg hcr]]
          exact ih best cnt

lemma maxCounts_nil : maxCounts [] = 0 := rfl

lemma maxCounts_cons (r : PyDict) (rest : List PyDict) :
    maxCounts (r :: rest) = max (countDataItems r) (maxCounts rest) := rfl

lemma foldl_updBest (rs : List PyDict) :
    ∀ (b : Option PyDict) (c : Nat),
      rs.foldl updBest (b, c)
        = if maxCounts rs ≤ c then (b, c)
          else (rs.find? (fun r => countDataItems r == maxCounts rs), maxCounts rs) := by
  induction rs with
  | nil =>
    intro b c
    rw [List.foldl_nil, maxCounts_nil, if_pos (Nat.zero_le c)]
  | cons r rest ih =>
    intro b c
    rw [List.foldl_cons, maxCounts_cons]
    by_cases hcr : c < countDataItems r
    · rw [show updBest (b, c) r = (some r, countDataItems r) by
        unfold updBest; rw [if_pos hcr]]
      rw [ih (some r) (countDataItems r)]
      by_cases h2 : maxCounts rest ≤ countDataItems r
      · rw [if_pos h2, if_neg (by omega)]
        have hmax : max (countDataItems r) (maxCounts rest) = countDataItems r := by omega
        rw [hmax]
        rw [List.find?_cons_of_pos _ (by simp)]
      · rw [if_neg h2, if_neg (by omega)]
        have hmax : max (countDataItems r) (maxCounts rest) = maxCounts rest := by omega
        rw [hmax]
        rw [List.find?_cons_of_neg _ (by simp; omega)]
    · rw [show updBest (b, c) r = (b, c) by unfold updBest; rw [if_neg hcr]]
      rw [ih b c]
      by_cases h2 : maxCounts rest ≤ c
      · rw [if_pos h2, if_pos (by omega)]
      · rw [if_neg h2, if_neg (by omega)]
        have hmax : max (countDataItems r) (maxCounts rest) = maxCounts rest := by omega
        rw [hmax]
        rw [List.find?_cons_of_neg _ (by simp; omega)]

lemma maxCounts_attained (rs : List PyDict) (h : 0 < maxCounts rs) :
    ∃ r ∈ rs, countDataItems r = maxCounts rs := by
  induction rs with
  | nil => rw [maxCounts_nil] at h; omega
  | cons r rest ih =>
    rw [maxCounts_cons] at h ⊢
    by_cases h2 : maxCounts rest ≤ countDataItems r
    · exact ⟨r, List.mem_cons_self r rest, by omega⟩
    · obtain ⟨x, hx1, hx2⟩ := ih (by omega)
      exact ⟨x, List.mem_cons_of_mem r hx1, by omega⟩

/- ### C1 -/

/-- C1: in the chunked path the attempted chunks are exactly the sorted
chunks up to the first score below 0.4 (`takeWhile`), which — because the
list is sorted descending by score with the original index as tie-break — are
exactly all chunks scoring ≥ 0.4 (`filter`); the sorted list is a permutation
of the scored chunks, whose indices are the original enumeration order and
whose scores come from `_score_chunk_relevance`. -/
theorem c1_attempted_chunks_spec (oracle : Oracle) (kws chunks : List Str) :
    attemptedChunks oracle (scoredSorted kws chunks)
        = (scoredSorted kws chunks).takeWhile aboveThreshold ∧
    attemptedChunks oracle (scoredSorted kws chunks)
        = (scoredSorted kws chunks).filter aboveThreshold ∧
    (scoredSorted kws chunks).Sorted scoredLE ∧
    (scoredSorted kws chunks).Perm (scoreChunks kws chunks) ∧
    (scoreChunks kws chunks).map Scored.idx = List.range chunks.length ∧
    (∀ s ∈ scoreChunks kws chunks, s.score = scoreChunkRelevance s.chunk kws) := by
  have hsorted : (scoredSorted kws chunks).Sorted scoredLE :=
    List.sorted_insertionSort scoredLE (scoreChunks kws chunks)
  refine ⟨attemptedChunks_eq_takeWhile oracle _, ?_, hsorted,
    List.perm_insertionSort scoredLE (scoreChunks kws chunks), ?_, ?_⟩
  · rw [attemptedChunks_eq_takeWhile oracle _]
    exact takeWhile_eq_filter_of_sorted _ hsorted
  · unfold scoreChunks
    rw [List.map_map]
    have hcomp : (Scored.idx ∘ fun p : Nat × Str =>
        (⟨scoreChunkRelevance p.2 kws, p.1, p.2⟩ : Scored)) = Prod.fst := rfl
    rw [hcomp]
    simp
  · intro s hs
    unfold scoreChunks at hs
    rw [List.mem_map] at hs
    obtain ⟨p, _, hp⟩ := hs
    rw [← hp]

/- ### C2 -/

/-- C2: when some per-chunk attempt succeeds with a positive
`_count_data_items`, `_extract_chunked` returns the first (highest-ranked)
successful result attaining the maximal count; otherwise (no attempt, all
failed, or all counts zero) it performs the fallback single-shot on the
top-scored chunk and returns that attempt's outcome, error included. -/
theorem c2_best_result_or_fallback (oracle : Oracle) (kws chunks : List Str) :
    (0 < maxCounts (successResults oracle (scoredSorted kws chunks)) →
      ∃ r, (successResults oracle (scoredSorted kws chunks)).find?
            (fun x => countDataItems x
              == maxCounts (successResults oracle (scoredSorted kws chunks))) = some r ∧
        r ∈ successResults oracle (scoredSorted kws chunks) ∧
        countDataItems r = maxCounts (successResults oracle (scoredSorted kws chunks)) ∧
        extractChunked oracle kws chunks = .ok r) ∧
    (maxCounts (successResults oracle (scoredSorted kws chunks)) = 0 →
      extractChunked oracle kws chunks
        = fallbackExtract oracle (scoredSorted kws chunks)) := by
  constructor
  · intro hpos
    obtain ⟨r0, hr0mem, hr0cnt⟩ :=
      maxCounts_attained (successResults oracle (scoredSorted kws chunks)) hpos
    have hfind : ∃ r, (successResults oracle (scoredSorted kws chunks)).find?
        (fun x => countDataItems x
          == maxCounts (successResults oracle (scoredSorted kws chunks))) = some r := by
      rw [← Option.isSome_iff_exists]
      rw [List.find?_isSome]
      exact ⟨r0, hr0mem, by rw [hr0cnt]; simp⟩
    obtain ⟨r, hr⟩ := hfind
    have hrmem := List.mem_of_find?_eq_some hr
    have hrcnt : countDataItems r
        = maxCounts (successResults oracle (scoredSorted kws chunks)) := by
      have := List.find?_some hr
      simpa using this
    refine ⟨r, hr, hrmem, hrcnt, ?_⟩
    unfold extractChunked
    rw [chunkedLoop_eq_foldl oracle _ Option.none 0, foldl_updBest]
    rw [if_neg (by omega)]
    rw [hr]
    show (if 0 < maxCounts (successResults oracle (scoredSorted kws chunks))
        then Except.ok r else fallbackExtract oracle (scoredSorted kws chunks))
      = Except.ok r
    rw [if_pos hpos]
  · intro hzero
    unfold extractChunked
    rw [chunkedLoop_eq_foldl oracle _ Option.none 0, foldl_updBest]
    rw [if_pos (by omega)]

/- ### C3 -/

/-- C3: a failing per-chunk attempt above the threshold is swallowed — the
loop continues on the remaining chunks with an unchanged accumulator — and
`_extract_chunked` can only surface an error from the final fallback: either
the sorted list is empty (`IndexError` on `scored_chunks[0]`) or the error is
exactly the oracle's outcome on the top-scored chunk. -/
theorem c3_per_chunk_failures_swallowed (oracle : Oracle) (kws chunks : List Str) :
    (∀ (s : Scored) (rest : List Scored) (best : Option PyDict) (cnt : Nat) (e : PyErr),
      ¬(s.score < 2/5) → oracle s.chunk = .error e →
        chunkedLoop oracle (s :: rest) best cnt = chunkedLoop oracle rest best cnt) ∧
    (∀ e : PyErr, extractChunked oracle kws chunks = .error e →
      (scoredSorted kws chunks = [] ∧ e = .indexError) ∨
      (∃ s rest, scoredSorted kws chunks = s :: rest ∧ oracle s.chunk = .error e)) := by
  constructor
  · intro s rest best cnt e hscore horacle
    rw [chunkedLoop]
    rw [if_neg hscore, horacle]
  · intro e he
    unfold extractChunked at he
    have hfb : fallbackExtract oracle (scoredSorted kws chunks) = .error e →
        (scoredSorted kws chunks = [] ∧ e = .indexError) ∨
        (∃ s rest, scoredSorted kws chunks = s :: rest ∧ oracle s.chunk = .error e) := by
      intro hf
      cases hss : scoredSorted kws chunks with
      | nil =>
        left
        rw [hss] at hf
        unfold fallbackExtract at hf
        exact ⟨rfl, by injection hf with h; exact h.symm⟩
      | cons s rest =>
        right
        rw [hss] at hf
        unfold fallbackExtract at hf
        exact ⟨s, rest, rfl, hf⟩
    cases hloop : chunkedLoop oracle (scoredSorted kws chunks) Option.none 0 with
    | mk b c =>
      rw [hloop] at he
      cases b with
      | none => exact hfb he
      | some r =>
        have he2 : (if 0 < c then Except.ok r
            else fallbackExtract oracle (scoredSorted kws chunks)) = Except.error e := he
        by_cases hc : 0 < c
        · rw [if_pos hc] at he2
          exact absurd he2 (by simp)
        · rw [if_neg hc] at he2
          exact hfb he2

theorem c2_best_result_or_fallback_witness :
    extractChunked constOkOracle [['a']] [['a']] = .ok [(['x'], PyVal.str ['v'])] := by
  have hscore : scoreChunkRelevance ['a'] [['a']] = 1 := by
    unfold scoreChunkRelevance
    rw [if_neg (by decide : ¬(([['a']] : List Str).isEmpty = true))]
    rw [show ([['a']] : List Str).countP (fun k => containsSub k (lowerStr ['a'])) = 1
      from by decide]
    norm_num
  have hsorted : scoredSorted [['a']] [['a']] = [⟨1, 0, ['a']⟩] := by
    unfold scoredSorted sortScored scoreChunks
    rw [show (([['a']] : List Str).enum.map fun p =>
        (⟨scoreChunkRelevance p.2 [['a']], p.1, p.2⟩ : Scored))
        = [⟨scoreChunkRelevance ['a'] [['a']], 0, ['a']⟩] from rfl]
    rw [hscore]
    rfl
  have hsucc : successResults constOkOracle (scoredSorted [['a']] [['a']])
      = [[(['x'], PyVal.str ['v'])]] := by
    rw [hsorted]
    unfold successResults
    rw [List.takeWhile_cons]
    rw [show aboveThreshold ⟨1, 0, ['a']⟩ = true from by
      unfold aboveThreshold
      rw [decide_eq_false (by show ¬((1 : ℚ) < 2/5); norm_num)]
      rfl]
    rw [if_pos (rfl : true = true)]
    rfl
  obtain ⟨r, hfind, hmem, hcnt, hok⟩ :=
    (c2_best_result_or_fallback constOkOracle [['a']] [['a']]).1 (by rw [hsucc]; decide)
  rw [hsucc] at hmem
  rw [List.mem_singleton] at hmem
  rw [hmem] at hok
  exact hok

theorem c3_per_chunk_failures_swallowed_witness :
    chunkedLoop constErrOracle [⟨1, 0, ['a']⟩] Option.none 0
        = chunkedLoop constErrOracle [] Option.none 0 ∧
    ((scoredSorted [['a']] [] = [] ∧ PyErr.indexError = PyErr.indexError) ∨
     (∃ s rest, scoredSorted [['a']] [] = s :: rest ∧
        constErrOracle s.chunk = Except.error PyErr.indexError)) := by
  constructor
  · exact (c3_per_chunk_failures_swallowed constErrOracle [['a']] []).1
      ⟨1, 0, ['a']⟩ [] Option.none 0 PyErr.valueError
      (by show ¬((1 : ℚ) < 2/5); norm_num) rfl
  · exact (c3_per_chunk_failures_swallowed constErrOracle [['a']] []).2
      PyErr.indexError rfl

/- ### C6 -/

lemma keywords_foldl (props : List (Str × Str)) :
    ∀ acc : List Str,
      props.foldl (fun acc p => acc ++ (lowerStr p.1 :: wordTokens (lowerStr p.2))) acc
        = acc ++ props.flatMap (fun p => lowerStr p.1 :: wordTokens (lowerStr p.2)) := by
  induction props with
  | nil => intro acc; simp
  | cons p ps ih =>
    intro acc
    rw [List.foldl_cons, ih, List.flatMap_cons, List.append_assoc]

/-- C6: `keywords(S)` contains the lower-cased name of every field and every
word token of its lower-cased description, contains nothing else, and has no
duplicate entries. -/
theorem c6_keywords_complete_nodup (props : List (Str × Str)) :
    (extractKeywordsFromSchema props).Nodup ∧
    (∀ k : Str, k ∈ extractKeywordsFromSchema props ↔
      ∃ p ∈ props, k = lowerStr p.1 ∨ k ∈ wordTokens (lowerStr p.2)) := by
  have heq : extractKeywordsFromSchema props
      = (props.flatMap fun p => lowerStr p.1 :: wordTokens (lowerStr p.2)).dedup := by
    unfold extractKeywordsFromSchema
    rw [keywords_foldl props []]
    rw [List.nil_append]
  constructor
  · rw [heq]
    exact List.nodup_dedup _
  · intro k
    rw [heq, List.mem_dedup, List.mem_flatMap]
    constructor
    · rintro ⟨p, hp, hk⟩
      rw [List.mem_cons] at hk
      exact ⟨p, hp, hk⟩
    · rintro ⟨p, hp, hk⟩
      refine ⟨p, hp, ?_⟩
      rw [List.mem_cons]
      exact hk

/- ### C7: tag-extraction and JSON round-trip lemmas -/

/-- C7 counterexample: for the JSON-serializable value `"</json>"` (a string),
`json.dumps` yields `"</json>"` verbatim, the wrapped text is
`<json>"</json>"</json>`, and the lazy group stops at the first closing tag:
the captured interior is just `"`, which is not valid JSON, so `parse` raises
`ValueError` instead of returning the value. -/
theorem c7_counterexample :
    extractJsonFromTags (wrapJsonTags (jser (JVal.jstr closeTagS)))
      ≠ Except.ok (JVal.jstr closeTagS) := by
  intro h
  rw [show extractJsonFromTags (wrapJsonTags (jser (JVal.jstr closeTagS)))
      = Except.error PyErr.valueError from rfl] at h
  exact Except.noConfusion h

lemma leadsWith_append (p r : Str) : leadsWith p (p ++ r) = true := by
  induction p with
  | nil => rfl
  | cons c p ih => simp [leadsWith, ih]

lemma leadsWith_refl (p : Str) : leadsWith p p = true := by
  have := leadsWith_append p []
  rwa [List.append_nil] at this

lemma leadsWith_iff_append (p s : Str) :
    leadsWith p s = true ↔ ∃ t, s = p ++ t := by
  constructor
  · intro h
    induction p generalizing s with
    | nil => exact ⟨s, rfl⟩
    | cons c p ih =>
      cases s with
      | nil => simp [leadsWith] at h
      | cons d t =>
        simp only [leadsWith, Bool.and_eq_true, decide_eq_true_eq] at h
        obtain ⟨t2, ht2⟩ := ih t h.2
        exact ⟨t2, by rw [ht2, h.1]; rfl⟩
  · rintro ⟨t, rfl⟩
    exact leadsWith_append p t

lemma leadsWith_append_left (pat x y : Str) (h : pat.length ≤ x.length) :
    leadsWith pat (x ++ y) = leadsWith pat x := by
  induction pat generalizing x with
  | nil => rfl
  | cons c p ih =>
    cases x with
    | nil => simp at h
    | cons d t =>
      simp only [List.cons_append, leadsWith]
      congr 1
      exact ih t (by simpa using h)

lemma leadsWith_short_split (pat x y : Str) (hlen : x.length ≤ pat.length)
    (h : leadsWith pat (x ++ y) = true) :
    leadsWith (pat.drop x.length) y = true := by
  induction x generalizing pat with
  | nil => simpa using h
  | cons d t ih =>
    cases pat with
    | nil => simp at hlen
    | cons c p =>
      simp only [List.cons_append, leadsWith, Bool.and_eq_true] at h
      simpa using ih p (by simpa using hlen) h.2

lemma strFindSub_of_leadsWith (pat s : Str) (h : leadsWith pat s = true) :
    strFindSub pat s = some 0 := by
  cases s with
  | nil => unfold strFindSub; rw [if_pos h]
  | cons c t => unfold strFindSub; rw [if_pos h]

lemma strFindSub_closeTag_append (x : Str)
    (hx : strFindSub closeTagS x = Option.none) :
    strFindSub closeTagS (x ++ closeTagS) = some x.length := by
  induction x with
  | nil =>
    rw [List.nil_append]
    exact strFindSub_of_leadsWith closeTagS closeTagS (leadsWith_refl _)
  | cons c t ih =>
    unfold strFindSub at hx
    by_cases hlw : leadsWith closeTagS (c :: t) = true
    · rw [if_pos hlw] at hx
      exact absurd hx (by simp)
    · rw [if_neg hlw] at hx
      rw [Option.map_eq_none'] at hx
      have hstrad : leadsWith closeTagS ((c :: t) ++ closeTagS) = false := by
        by_contra hcon
        rw [Bool.not_eq_false] at hcon
        by_cases hl : closeTagS.length ≤ (c :: t).length
        · rw [leadsWith_append_left closeTagS (c :: t) closeTagS hl] at hcon
          exact hlw hcon
        · have hsplit := leadsWith_short_split closeTagS (c :: t) closeTagS
            (by omega) hcon
          have hk1 : 1 ≤ (c :: t).length := by simp
          have hk6 : (c :: t).length ≤ 6 := by
            have : closeTagS.length = 7 := rfl
            omega
          set k := (c :: t).length with hkdef
          interval_cases k <;> revert hsplit <;> decide
      show (if leadsWith closeTagS ((c :: t) ++ closeTagS) then some 0
        else (strFindSub closeTagS (t ++ closeTagS)).map (· + 1)) = some (t.length + 1)
      rw [if_neg (by rw [hstrad]; simp)]
      rw [ih hx]
      rfl

lemma skipWs_cons_of_not_ws (c : Char) (s : Str) (h : isWsB c = false) :
    skipWs (c :: s) = c :: s := by
  unfold skipWs
  rw [List.dropWhile_cons, h]
  simp

lemma parseVal_cons_ws (fuel : Nat) (c : Char) (s : Str) (h : isWsB c = true) :
    parseVal fuel (c :: s) = parseVal fuel s := by
  cases fuel with
  | zero => rfl
  | succ fuel =>
    show (match skipWs (c :: s) with | [] => _ | c :: r => _)
      = (match skipWs s with | [] => _ | c :: r => _)
    rw [show skipWs (c :: s) = skipWs s by unfold skipWs; rw [List.dropWhile_cons, h]; simp]

lemma parseStrBody_escStr (s rest : Str) :
    parseStrBody (escStr s ++ '"' :: rest) = some (s, rest) := by
  induction s with
  | nil =>
    show parseStrBody ('"' :: rest) = some ([], rest)
    unfold parseStrBody
    rw [if_pos rfl]
  | cons c s ih =>
    show parseStrBody (escChar c ++ escStr s ++ '"' :: rest) = some (c :: s, rest)
    by_cases hc : c = '"' ∨ c = '\\'
    · rw [show escChar c = ['\\', c] from by unfold escChar; rw [if_pos hc]]
      show parseStrBody ('\\' :: c :: (escStr s ++ '"' :: rest)) = some (c :: s, rest)
      unfold parseStrBody
      rw [if_neg (by decide : ¬('\\' = '"')), if_pos rfl]
      rcases hc with hc | hc
      · rw [hc]
        simp [unesc, ih]
      · rw [hc]
        simp [unesc, ih]
    · rw [show escChar c = [c] from by unfold escChar; rw [if_neg hc]]
      push_neg at hc
      show parseStrBody (c :: (escStr s ++ '"' :: rest)) = some (c :: s, rest)
      unfold parseStrBody
      rw [if_neg hc.1, if_neg hc.2, ih]
      rfl

lemma digitChar_isDigit (d : Nat) (hd : d < 10) : (digitChar d).isDigit = true := by
  interval_cases d <;> decide

lemma digitChar_toNat (d : Nat) (hd : d < 10) : (digitChar d).toNat - 48 = d := by
  interval_cases d <;> decide

lemma digitChar_not_ws (d : Nat) (hd : d < 10) : isWsB (digitChar d) = false := by
  interval_cases d <;> decide

lemma isDigit_ne_minus (c : Char) (h : c.isDigit = true) : ¬(c = '-') := by
  intro heq
  rw [heq] at h
  exact absurd h (by decide)

lemma parseDigits_boundary (rest : Str) (hb : numBoundary rest) :
    parseDigits rest = ([], rest) := by
  cases rest with
  | nil => rfl
  | cons c r =>
    unfold numBoundary at hb
    unfold parseDigits
    rw [hb]
    simp

lemma parseDigits_digits (l : List Nat) (rest : Str) (hl : ∀ d ∈ l, d < 10)
    (hb : numBoundary rest) :
    parseDigits (l.map digitChar ++ rest) = (l, rest) := by
  induction l with
  | nil => exact parseDigits_boundary rest hb
  | cons d l ih =>
    have hd : d < 10 := hl d (List.mem_cons_self d l)
    show parseDigits (digitChar d :: (l.map digitChar ++ rest)) = (d :: l, rest)
    unfold parseDigits
    rw [digitChar_isDigit d hd]
    rw [ih (fun x hx => hl x (List.mem_cons_of_mem d hx))]
    rw [digitChar_toNat d hd]
    simp

lemma digitsToNat_foldl (l : List Nat) :
    ∀ a : Nat, l.foldl (fun a d => 10 * a + d) a
      = a * 10 ^ l.length + Nat.ofDigits 10 l.reverse := by
  induction l with
  | nil => intro a; simp
  | cons d l ih =>
    intro a
    rw [List.foldl_cons, ih (10 * a + d)]
    rw [List.reverse_cons, Nat.ofDigits_append]
    simp only [List.length_reverse, List.length_cons, Nat.ofDigits_singleton]
    ring

lemma digitsToNat_digits (n : Nat) :
    digitsToNat ((Nat.digits 10 n).reverse) = n := by
  unfold digitsToNat
  rw [digitsToNat_foldl]
  simp only [Nat.zero_mul, List.reverse_reverse, Nat.zero_add]
  exact Nat.ofDigits_digits 10 n

lemma parseNatTok_natChars (n : Nat) (rest : Str) (hb : numBoundary rest) :
    parseNatTok (natChars n ++ rest) = some (n, rest) := by
  by_cases hn : n = 0
  · rw [hn]
    show parseNatTok ('0' :: rest) = some (0, rest)
    unfold parseNatTok
    rw [show parseDigits ('0' :: rest) = ([0], rest) from by
      unfold parseDigits
      rw [show ('0' : Char).isDigit = true from by decide]
      rw [parseDigits_boundary rest hb]
      simp]
    rfl
  · rw [show natChars n = (Nat.digits 10 n).reverse.map digitChar from by
      unfold natChars; rw [if_neg hn]]
    unfold parseNatTok
    rw [parseDigits_digits ((Nat.digits 10 n).reverse) rest
      (fun d hd => Nat.digits_lt_base (by norm_num) (List.mem_reverse.mp hd)) hb]
    have hne : (Nat.digits 10 n).reverse ≠ [] := by
      simp [Nat.digits_ne_nil_iff_ne_zero, hn]
    cases hds : (Nat.digits 10 n).reverse with
    | nil => exact absurd hds hne
    | cons d ds =>
      show some (digitsToNat (d :: ds), rest) = some (n, rest)
      rw [← hds, digitsToNat_digits n]

lemma parseIntTok_jserInt (n : Int) (rest : Str) (hb : numBoundary rest) :
    parseIntTok (jserInt n ++ rest) = some (n, rest) := by
  by_cases hn : n < 0
  · rw [show jserInt n = '-' :: natChars n.natAbs from by
      unfold jserInt; rw [if_pos hn]]
    show parseIntTok ('-' :: (natChars n.natAbs ++ rest)) = some (n, rest)
    rw [show parseIntTok ('-' :: (natChars n.natAbs ++ rest))
        = (parseNatTok (natChars n.natAbs ++ rest)).map
            (fun p => (-(p.1 : Int), p.2)) from rfl]
    rw [parseNatTok_natChars n.natAbs rest hb]
    simp only [Option.map_some']
    congr 1
    rw [Prod.ext_iff]
    refine ⟨?_, rfl⟩
    simp only
    omega
  · rw [show jserInt n = natChars n.toNat from by unfold jserInt; rw [if_neg hn]]
    obtain ⟨c, cs, hcs, hdig⟩ : ∃ c cs, natChars n.toNat = c :: cs ∧ c.isDigit = true := by
      by_cases h0 : n.toNat = 0
      · exact ⟨'0', [], by rw [h0]; rfl, by decide⟩
      · rw [show natChars n.toNat = (Nat.digits 10 n.toNat).reverse.map digitChar from by
          unfold natChars; rw [if_neg h0]]
        have hne : (Nat.digits 10 n.toNat).reverse ≠ [] := by
          simp [Nat.digits_ne_nil_iff_ne_zero, h0]
        cases hds : (Nat.digits 10 n.toNat).reverse with
        | nil => exact absurd hds hne
        | cons d ds =>
          refine ⟨digitChar d, ds.map digitChar, by rfl, ?_⟩
          exact digitChar_isDigit d (Nat.digits_lt_base (by norm_num)
            (List.mem_reverse.mp (by rw [hds]; exact List.mem_cons_self d ds)))
    rw [hcs]
    show parseIntTok (c :: (cs ++ rest)) = some (n, rest)
    rw [show parseIntTok (c :: (cs ++ rest))
        = (if c = '-' then (parseNatTok (cs ++ rest)).map (fun p => (-(p.1 : Int), p.2))
           else (parseNatTok (c :: (cs ++ rest))).map (fun p => ((p.1 : Int), p.2)))
        from rfl]
    rw [if_neg (isDigit_ne_minus c hdig)]
    rw [show c :: (cs ++ rest) = (c :: cs) ++ rest from rfl, ← hcs]
    rw [parseNatTok_natChars n.toNat rest hb]
    simp only [Option.map_some']
    congr 1
    rw [Prod.ext_iff]
    refine ⟨?_, rfl⟩
    simp only
    omega

lemma skipWs_cons_ws (c : Char) (s : Str) (h : isWsB c = true) :
    skipWs (c :: s) = skipWs s := by
  unfold skipWs
  rw [List.dropWhile_cons, h]
  simp

lemma parseElems_cons_ws (fuel : Nat) (c : Char) (s : Str) (h : isWsB c = true) :
    parseElems fuel (c :: s) = parseElems fuel s := by
  cases fuel with
  | zero => rfl
  | succ g =>
    simp only [parseElems]
    rw [parseVal_cons_ws g c s h]

lemma parseMembs_cons_ws (fuel : Nat) (c : Char) (s : Str) (h : isWsB c = true) :
    parseMembs fuel (c :: s) = parseMembs fuel s := by
  cases fuel with
  | zero => rfl
  | succ g =>
    simp only [parseMembs]
    rw [skipWs_cons_ws c s h]

lemma jsize_pos (v : JVal) : 1 ≤ jsize v := by
  cases v <;> simp [jsize]

lemma natChars_head (m : Nat) :
    ∃ d cs, d < 10 ∧ natChars m = digitChar d :: cs := by
  by_cases h0 : m = 0
  · exact ⟨0, [], by norm_num, by rw [h0]; rfl⟩
  · rw [show natChars m = (Nat.digits 10 m).reverse.map digitChar from by
      unfold natChars; rw [if_neg h0]]
    have hne : (Nat.digits 10 m).reverse ≠ [] := by
      simp [Nat.digits_ne_nil_iff_ne_zero, h0]
    cases hds : (Nat.digits 10 m).reverse with
    | nil => exact absurd hds hne
    | cons d ds =>
      exact ⟨d, ds.map digitChar,
        Nat.digits_lt_base (by norm_num)
          (List.mem_reverse.mp (by rw [hds]; exact List.mem_cons_self d ds)), rfl⟩

lemma jserInt_head (n : Int) : ∃ c cs, jserInt n = c :: cs ∧
    (c = '-' ∨ ∃ d, d < 10 ∧ c = digitChar d) := by
  by_cases hn : n < 0
  · exact ⟨'-', natChars n.natAbs, by unfold jserInt; rw [if_pos hn], Or.inl rfl⟩
  · obtain ⟨d, cs, hd, hcs⟩ := natChars_head n.toNat
    exact ⟨digitChar d, cs,
      by rw [show jserInt n = natChars n.toNat from by unfold jserInt; rw [if_neg hn], hcs],
      Or.inr ⟨d, hd, rfl⟩⟩

lemma numStart_facts (c : Char) (h : c = '-' ∨ ∃ d, d < 10 ∧ c = digitChar d) :
    isWsB c = false ∧ ¬c = 'n' ∧ ¬c = 't' ∧ ¬c = 'f' ∧ ¬c = '"' ∧ ¬c = '[' ∧
    ¬c = '\x7b' ∧ ¬c = ']' ∧ ¬c = '\x7d' ∧ (c = '-' ∨ c.isDigit = true) := by
  rcases h with rfl | ⟨d, hd, rfl⟩
  · exact ⟨by decide, by decide, by decide, by decide, by decide, by decide, by decide,
      by decide, by decide, Or.inl rfl⟩
  · interval_cases d <;>
      exact ⟨by decide, by decide, by decide, by decide, by decide, by decide, by decide,
        by decide, by decide, Or.inr (by decide)⟩

lemma jser_head (v : JVal) : ∃ c cs, jser v = c :: cs ∧
    isWsB c = false ∧ ¬c = ']' ∧ ¬c = '\x7d' := by
  cases v with
  | jnull => exact ⟨'n', _, rfl, by decide, by decide, by decide⟩
  | jbool b =>
    cases b with
    | true => refine ⟨'t', _, rfl, ?_, ?_, ?_⟩ <;> decide
    | false => refine ⟨'f', _, rfl, ?_, ?_, ?_⟩ <;> decide
  | jint n =>
    obtain ⟨c, cs, hcs, hp⟩ := jserInt_head n
    obtain ⟨hws, _, _, _, _, _, _, hrb, hrc, _⟩ := numStart_facts c hp
    exact ⟨c, cs, hcs, hws, hrb, hrc⟩
  | jstr s => exact ⟨'"', _, rfl, by decide, by decide, by decide⟩
  | jarr es => exact ⟨'[', _, rfl, by decide, by decide, by decide⟩
  | jobj ms => exact ⟨'\x7b', _, rfl, by decide, by decide, by decide⟩

lemma jserElems_cons (e : JVal) (es : List JVal) :
    ∃ t, jserElems (e :: es) = jser e ++ t := by
  cases es with
  | nil => exact ⟨[], by rw [List.append_nil]; rfl⟩
  | cons e2 es2 => exact ⟨',' :: ' ' :: jserElems (e2 :: es2), rfl⟩

lemma parse_jser (fuel : Nat) :
    (∀ (v : JVal) (rest : Str), jsize v ≤ fuel → numBoundary rest →
       parseVal fuel (jser v ++ rest) = some (v, rest)) ∧
    (∀ (es : List JVal) (rest : Str), es ≠ [] → jsizeElems es ≤ fuel → numBoundary rest →
       parseElems fuel (jserElems es ++ ']' :: rest) = some (es, rest)) ∧
    (∀ (ms : List (Str × JVal)) (rest : Str), ms ≠ [] → jsizeMembs ms ≤ fuel →
       numBoundary rest →
       parseMembs fuel (jserMembs ms ++ '\x7d' :: rest) = some (ms, rest)) := by
  induction fuel with
  | zero =>
    refine ⟨?_, ?_, ?_⟩
    · intro v rest hsz _
      exact absurd hsz (by have := jsize_pos v; omega)
    · intro es rest hne hsz _
      cases es with
      | nil => exact absurd rfl hne
      | cons e es2 =>
        rw [show jsizeElems (e :: es2) = 1 + jsize e + jsizeElems es2 from rfl] at hsz
        omega
    · intro ms rest hne hsz _
      cases ms with
      | nil => exact absurd rfl hne
      | cons kv ms2 =>
        obtain ⟨k, v⟩ := kv
        rw [show jsizeMembs ((k, v) :: ms2) = 1 + jsize v + jsizeMembs ms2 from rfl] at hsz
        omega
  | succ fuel ih =>
    obtain ⟨ihv, ihe, ihm⟩ := ih
    refine ⟨?_, ?_, ?_⟩
    · intro v rest hsz hb
      cases v with
      | jnull =>
        show parseVal (fuel + 1) ('n' :: 'u' :: 'l' :: 'l' :: rest) = some (.jnull, rest)
        have hskip : skipWs ('n' :: 'u' :: 'l' :: 'l' :: rest)
            = 'n' :: 'u' :: 'l' :: 'l' :: rest := skipWs_cons_of_not_ws _ _ (by decide)
        simp [parseVal, hskip, leadsWith]
      | jbool b =>
        cases b with
        | true =>
          show parseVal (fuel + 1) ('t' :: 'r' :: 'u' :: 'e' :: rest)
            = some (.jbool true, rest)
          have hskip : skipWs ('t' :: 'r' :: 'u' :: 'e' :: rest)
              = 't' :: 'r' :: 'u' :: 'e' :: rest := skipWs_cons_of_not_ws _ _ (by decide)
          simp [parseVal, hskip, leadsWith]
        | false =>
          show parseVal (fuel + 1) ('f' :: 'a' :: 'l' :: 's' :: 'e' :: rest)
            = some (.jbool false, rest)
          have hskip : skipWs ('f' :: 'a' :: 'l' :: 's' :: 'e' :: rest)
              = 'f' :: 'a' :: 'l' :: 's' :: 'e' :: rest := skipWs_cons_of_not_ws _ _ (by decide)
          simp [parseVal, hskip, leadsWith]
      | jstr s =>
        show parseVal (fuel + 1) (('"' :: escStr s ++ ['"']) ++ rest) = some (.jstr s, rest)
        have harr : ('"' :: escStr s ++ ['"']) ++ rest = '"' :: (escStr s ++ '"' :: rest) := by
          simp
        rw [harr]
        have hskip : skipWs ('"' :: (escStr s ++ '"' :: rest))
            = '"' :: (escStr s ++ '"' :: rest) := skipWs_cons_of_not_ws _ _ (by decide)
        simp [parseVal, hskip, parseStrBody_escStr s rest]
      | jint n =>
        obtain ⟨c, cs, hcs, hp⟩ := jserInt_head n
        obtain ⟨hws, h1, h2, h3, h4, h5, h6, _, _, h7⟩ := numStart_facts c hp
        show parseVal (fuel + 1) (jserInt n ++ rest) = some (.jint n, rest)
        rw [show jserInt n ++ rest = c :: (cs ++ rest) from by rw [hcs]; rfl]
        have hskip : skipWs (c :: (cs ++ rest)) = c :: (cs ++ rest) :=
          skipWs_cons_of_not_ws _ _ hws
        simp only [parseVal, hskip]
        rw [if_neg h1, if_neg h2, if_neg h3, if_neg h4, if_neg h5, if_neg h6, if_pos h7]
        rw [show c :: (cs ++ rest) = jserInt n ++ rest from by rw [hcs]; rfl]
        rw [parseIntTok_jserInt n rest hb]
        rfl
      | jarr es =>
        cases es with
        | nil =>
          show parseVal (fuel + 1) ('[' :: ']' :: rest) = some (.jarr [], rest)
          have hskip : skipWs ('[' :: ']' :: rest) = '[' :: ']' :: rest :=
            skipWs_cons_of_not_ws _ _ (by decide)
          have hskip2 : skipWs (']' :: rest) = ']' :: rest :=
            skipWs_cons_of_not_ws _ _ (by decide)
          simp [parseVal, hskip, hskip2]
        | cons e es2 =>
          have harr : jser (.jarr (e :: es2)) ++ rest
              = '[' :: (jserElems (e :: es2) ++ ']' :: rest) := by
            show ('[' :: jserElems (e :: es2) ++ [']']) ++ rest = _
            simp
          rw [harr]
          obtain ⟨t, ht⟩ := jserElems_cons e es2
          obtain ⟨ch, chs, hch, hchws, hchrb, _⟩ := jser_head e
          have hhead : jserElems (e :: es2) ++ ']' :: rest
              = ch :: (chs ++ (t ++ ']' :: rest)) := by
            rw [ht, hch]
            simp
          have hskip : skipWs ('[' :: (jserElems (e :: es2) ++ ']' :: rest))
              = '[' :: (jserElems (e :: es2) ++ ']' :: rest) :=
            skipWs_cons_of_not_ws _ _ (by decide)
          have hskip2 : skipWs (jserElems (e :: es2) ++ ']' :: rest)
              = ch :: (chs ++ (t ++ ']' :: rest)) := by
            rw [hhead]
            exact skipWs_cons_of_not_ws _ _ hchws
          have hel : parseElems fuel (jserElems (e :: es2) ++ ']' :: rest)
              = some (e :: es2, rest) := by
            refine ihe (e :: es2) rest (by simp) ?_ hb
            rw [show jsize (JVal.jarr (e :: es2)) = 1 + jsizeElems (e :: es2) from rfl] at hsz
            omega
          simp only [parseVal, hskip]
          rw [if_neg (by decide : ¬('[' = 'n')), if_neg (by decide : ¬('[' = 't')),
            if_neg (by decide : ¬('[' = 'f')), if_neg (by decide : ¬('[' = '"')),
            if_pos trivial]
          rw [hskip2]
          split
          · next r2 heq =>
            exact absurd (List.head_eq_of_cons_eq heq) hchrb
          · next hne2 =>
            rw [hel]
            rfl
      | jobj ms =>
        cases ms with
        | nil =>
          show parseVal (fuel + 1) ('\x7b' :: '\x7d' :: rest) = some (.jobj [], rest)
          have hskip : skipWs ('\x7b' :: '\x7d' :: rest) = '\x7b' :: '\x7d' :: rest :=
            skipWs_cons_of_not_ws _ _ (by decide)
          have hskip2 : skipWs ('\x7d' :: rest) = '\x7d' :: rest :=
            skipWs_cons_of_not_ws _ _ (by decide)
          simp [parseVal, hskip, hskip2]
        | cons kv ms2 =>
          obtain ⟨k, v⟩ := kv
          have harr : jser (.jobj ((k, v) :: ms2)) ++ rest
              = '\x7b' :: (jserMembs ((k, v) :: ms2) ++ '\x7d' :: rest) := by
            show ('\x7b' :: jserMembs ((k, v) :: ms2) ++ ['\x7d']) ++ rest = _
            simp
          rw [harr]
          have hmh : ∃ t2, jserMembs ((k, v) :: ms2) = '"' :: t2 := by
            cases ms2 with
            | nil => exact ⟨escStr k ++ ['"'] ++ ':' :: ' ' :: jser v, by
                show jserStr k ++ ':' :: ' ' :: jser v = _
                unfold jserStr
                simp⟩
            | cons kv2 ms3 => exact ⟨escStr k ++ ['"'] ++ ':' :: ' ' :: jser v
                ++ ',' :: ' ' :: jserMembs (kv2 :: ms3), by
                show jserStr k ++ ':' :: ' ' :: jser v ++ ',' :: ' ' :: jserMembs (kv2 :: ms3) = _
                unfold jserStr
                simp⟩
          obtain ⟨t2, ht2⟩ := hmh
          have hskip : skipWs ('\x7b' :: (jserMembs ((k, v) :: ms2) ++ '\x7d' :: rest))
              = '\x7b' :: (jserMembs ((k, v) :: ms2) ++ '\x7d' :: rest) :=
            skipWs_cons_of_not_ws _ _ (by decide)
          have hskip2 : skipWs (jserMembs ((k, v) :: ms2) ++ '\x7d' :: rest)
              = '"' :: (t2 ++ '\x7d' :: rest) := by
            rw [ht2]
            exact skipWs_cons_of_not_ws _ _ (by decide)
          have hmem : parseMembs fuel (jserMembs ((k, v) :: ms2) ++ '\x7d' :: rest)
              = some ((k, v) :: ms2, rest) := by
            refine ihm ((k, v) :: ms2) rest (by simp) ?_ hb
            rw [show jsize (JVal.jobj ((k, v) :: ms2)) = 1 + jsizeMembs ((k, v) :: ms2)
              from rfl] at hsz
            omega
          simp only [parseVal, hskip]
          rw [if_neg (by decide : ¬('\x7b' = 'n')), if_neg (by decide : ¬('\x7b' = 't')),
            if_neg (by decide : ¬('\x7b' = 'f')), if_neg (by decide : ¬('\x7b' = '"')),
            if_neg (by decide : ¬('\x7b' = '[')), if_pos trivial]
          rw [hskip2]
          split
          · next r2 heq =>
            exact absurd (List.head_eq_of_cons_eq heq) (by decide)
          · next hne2 =>
            rw [hmem]
            rfl
    · intro es rest hne hsz hb
      cases es with
      | nil => exact absurd rfl hne
      | cons e es2 =>
        cases es2 with
        | nil =>
          show parseElems (fuel + 1) (jser e ++ ']' :: rest) = some ([e], rest)
          have hv : parseVal fuel (jser e ++ ']' :: rest) = some (e, ']' :: rest) := by
            refine ihv e (']' :: rest) ?_ (by show (']' : Char).isDigit = false; decide)
            rw [show jsizeElems [e] = 1 + jsize e + 0 from rfl] at hsz
            omega
          have hskip : skipWs (']' :: rest) = ']' :: rest :=
            skipWs_cons_of_not_ws _ _ (by decide)
          simp [parseElems, hv, hskip]
        | cons e2 es3 =>
          show parseElems (fuel + 1)
            ((jser e ++ ',' :: ' ' :: jserElems (e2 :: es3)) ++ ']' :: rest)
            = some (e :: e2 :: es3, rest)
          have harr : (jser e ++ ',' :: ' ' :: jserElems (e2 :: es3)) ++ ']' :: rest
              = jser e ++ ',' :: ' ' :: (jserElems (e2 :: es3) ++ ']' :: rest) := by
            simp
          rw [harr]
          have hv : parseVal fuel
              (jser e ++ ',' :: ' ' :: (jserElems (e2 :: es3) ++ ']' :: rest))
              = some (e, ',' :: ' ' :: (jserElems (e2 :: es3) ++ ']' :: rest)) := by
            refine ihv e _ ?_ (by show (',' : Char).isDigit = false; decide)
            rw [show jsizeElems (e :: e2 :: es3)
              = 1 + jsize e + jsizeElems (e2 :: es3) from rfl] at hsz
            omega
          have hskip : skipWs (',' :: ' ' :: (jserElems (e2 :: es3) ++ ']' :: rest))
              = ',' :: ' ' :: (jserElems (e2 :: es3) ++ ']' :: rest) :=
            skipWs_cons_of_not_ws _ _ (by decide)
          have htail : parseElems fuel (' ' :: (jserElems (e2 :: es3) ++ ']' :: rest))
              = some (e2 :: es3, rest) := by
            rw [parseElems_cons_ws fuel ' ' _ (by decide)]
            refine ihe (e2 :: es3) rest (by simp) ?_ hb
            rw [show jsizeElems (e :: e2 :: es3)
              = 1 + jsize e + jsizeElems (e2 :: es3) from rfl] at hsz
            omega
          simp [parseElems, hv, hskip, htail]
    · intro ms rest hne hsz hb
      cases ms with
      | nil => exact absurd rfl hne
      | cons kv ms2 =>
        obtain ⟨k, v⟩ := kv
        cases ms2 with
        | nil =>
          have harr : jserMembs [(k, v)] ++ '\x7d' :: rest
              = '"' :: (escStr k ++ '"' :: ':' :: ' ' :: (jser v ++ '\x7d' :: rest)) := by
            show (jserStr k ++ ':' :: ' ' :: jser v) ++ '\x7d' :: rest = _
            unfold jserStr
            simp
          rw [harr]
          have hsk1 : skipWs ('"' :: (escStr k ++ '"' :: ':' :: ' ' :: (jser v ++ '\x7d' :: rest)))
              = '"' :: (escStr k ++ '"' :: ':' :: ' ' :: (jser v ++ '\x7d' :: rest)) :=
            skipWs_cons_of_not_ws _ _ (by decide)
          have hps : parseStrBody (escStr k ++ '"' :: ':' :: ' ' :: (jser v ++ '\x7d' :: rest))
              = some (k, ':' :: ' ' :: (jser v ++ '\x7d' :: rest)) :=
            parseStrBody_escStr k _
          have hsk2 : skipWs (':' :: ' ' :: (jser v ++ '\x7d' :: rest))
              = ':' :: ' ' :: (jser v ++ '\x7d' :: rest) :=
            skipWs_cons_of_not_ws _ _ (by decide)
          have hpv : parseVal fuel (' ' :: (jser v ++ '\x7d' :: rest))
              = some (v, '\x7d' :: rest) := by
            rw [parseVal_cons_ws fuel ' ' _ (by decide)]
            refine ihv v ('\x7d' :: rest) ?_ (by show ('\x7d' : Char).isDigit = false; decide)
            rw [show jsizeMembs [(k, v)] = 1 + jsize v + 0 from rfl] at hsz
            omega
          have hsk3 : skipWs ('\x7d' :: rest) = '\x7d' :: rest :=
            skipWs_cons_of_not_ws _ _ (by decide)
          simp [parseMembs, hsk1, hps, hsk2, hpv, hsk3]
        | cons kv2 ms3 =>
          have harr : jserMembs ((k, v) :: kv2 :: ms3) ++ '\x7d' :: rest
              = '"' :: (escStr k ++ '"' :: ':' :: ' ' ::
                  (jser v ++ ',' :: ' ' :: (jserMembs (kv2 :: ms3) ++ '\x7d' :: rest))) := by
            show (jserStr k ++ ':' :: ' ' :: jser v ++ ',' :: ' ' :: jserMembs (kv2 :: ms3))
              ++ '\x7d' :: rest = _
            unfold jserStr
            simp
          rw [harr]
          have hsk1 : skipWs ('"' :: (escStr k ++ '"' :: ':' :: ' ' ::
                (jser v ++ ',' :: ' ' :: (jserMembs (kv2 :: ms3) ++ '\x7d' :: rest))))
              = '"' :: (escStr k ++ '"' :: ':' :: ' ' ::
                (jser v ++ ',' :: ' ' :: (jserMembs (kv2 :: ms3) ++ '\x7d' :: rest))) :=
            skipWs_cons_of_not_ws _ _ (by decide)
          have hps : parseStrBody (escStr k ++ '"' :: ':' :: ' ' ::
                (jser v ++ ',' :: ' ' :: (jserMembs (kv2 :: ms3) ++ '\x7d' :: rest)))
              = some (k, ':' :: ' ' ::
                (jser v ++ ',' :: ' ' :: (jserMembs (kv2 :: ms3) ++ '\x7d' :: rest))) :=
            parseStrBody_escStr k _
          have hsk2 : skipWs (':' :: ' ' ::
                (jser v ++ ',' :: ' ' :: (jserMembs (kv2 :: ms3) ++ '\x7d' :: rest)))
              = ':' :: ' ' ::
                (jser v ++ ',' :: ' ' :: (jserMembs (kv2 :: ms3) ++ '\x7d' :: rest)) :=
            skipWs_cons_of_not_ws _ _ (by decide)
          have hpv : parseVal fuel
              (' ' :: (jser v ++ ',' :: ' ' :: (jserMembs (kv2 :: ms3) ++ '\x7d' :: rest)))
              = some (v, ',' :: ' ' :: (jserMembs (kv2 :: ms3) ++ '\x7d' :: rest)) := by
            rw [parseVal_cons_ws fuel ' ' _ (by decide)]
            refine ihv v _ ?_ (by show (',' : Char).isDigit = false; decide)
            rw [show jsizeMembs ((k, v) :: kv2 :: ms3)
              = 1 + jsize v + jsizeMembs (kv2 :: ms3) from rfl] at hsz
            omega
          have hsk3 : skipWs (',' :: ' ' :: (jserMembs (kv2 :: ms3) ++ '\x7d' :: rest))
              = ',' :: ' ' :: (jserMembs (kv2 :: ms3) ++ '\x7d' :: rest) :=
            skipWs_cons_of_not_ws _ _ (by decide)
          have htail : parseMembs fuel
              (' ' :: (jserMembs (kv2 :: ms3) ++ '\x7d' :: rest))
              = some (kv2 :: ms3, rest) := by
            rw [parseMembs_cons_ws fuel ' ' _ (by decide)]
            refine ihm (kv2 :: ms3) rest (by simp) ?_ hb
            obtain ⟨k2, v2⟩ := kv2
            rw [show jsizeMembs ((k, v) :: (k2, v2) :: ms3)
              = 1 + jsize v + jsizeMembs ((k2, v2) :: ms3) from rfl] at hsz
            omega
          simp [parseMembs, hsk1, hps, hsk2, hpv, hsk3, htail]

lemma jsize_le_jser_len (n : Nat) :
    (∀ v : JVal, jsize v ≤ n → jsize v ≤ (jser v).length) ∧
    (∀ es : List JVal, jsizeElems es ≤ n → jsizeElems es ≤ (jserElems es).length + 1) ∧
    (∀ ms : List (Str × JVal), jsizeMembs ms ≤ n →
       jsizeMembs ms ≤ (jserMembs ms).length + 1) := by
  induction n with
  | zero =>
    refine ⟨?_, ?_, ?_⟩
    · intro v hsz
      exact absurd hsz (by have := jsize_pos v; omega)
    · intro es hsz
      cases es with
      | nil => simp [jsizeElems]
      | cons e es2 =>
        rw [show jsizeElems (e :: es2) = 1 + jsize e + jsizeElems es2 from rfl] at hsz
        omega
    · intro ms hsz
      cases ms with
      | nil => simp [jsizeMembs]
      | cons kv ms2 =>
        obtain ⟨k, v⟩ := kv
        rw [show jsizeMembs ((k, v) :: ms2) = 1 + jsize v + jsizeMembs ms2 from rfl] at hsz
        omega
  | succ n ih =>
    obtain ⟨ihv, ihe, ihm⟩ := ih
    refine ⟨?_, ?_, ?_⟩
    · intro v hsz
      cases v with
      | jnull => decide
      | jbool b => cases b <;> decide
      | jint m =>
        obtain ⟨c, cs, hcs, _⟩ := jserInt_head m
        show 1 ≤ (jserInt m).length
        rw [hcs]
        simp
      | jstr s =>
        show 1 ≤ ('"' :: escStr s ++ ['"']).length
        simp
      | jarr es =>
        have h1 : jsizeElems es ≤ (jserElems es).length + 1 := by
          refine ihe es ?_
          rw [show jsize (JVal.jarr es) = 1 + jsizeElems es from rfl] at hsz
          omega
        show 1 + jsizeElems es ≤ ('[' :: jserElems es ++ [']']).length
        simp only [List.cons_append, List.length_cons, List.length_append,
          List.length_singleton]
        omega
      | jobj ms =>
        have h1 : jsizeMembs ms ≤ (jserMembs ms).length + 1 := by
          refine ihm ms ?_
          rw [show jsize (JVal.jobj ms) = 1 + jsizeMembs ms from rfl] at hsz
          omega
        show 1 + jsizeMembs ms ≤ ('\x7b' :: jserMembs ms ++ ['\x7d']).length
        simp only [List.cons_append, List.length_cons, List.length_append,
          List.length_singleton]
        omega
    · intro es hsz
      cases es with
      | nil => simp [jsizeElems]
      | cons e es2 =>
        have hsz2 : 1 + jsize e + jsizeElems es2 ≤ n + 1 := hsz
        have h1 : jsize e ≤ (jser e).length := ihv e (by omega)
        cases es2 with
        | nil =>
          show 1 + jsize e + jsizeElems ([] : List JVal) ≤ (jser e).length + 1
          rw [show jsizeElems ([] : List JVal) = 0 from rfl]
          omega
        | cons e2 es3 =>
          have h2 : jsizeElems (e2 :: es3) ≤ (jserElems (e2 :: es3)).length + 1 :=
            ihe (e2 :: es3) (by omega)
          show 1 + jsize e + jsizeElems (e2 :: es3)
            ≤ (jser e ++ ',' :: ' ' :: jserElems (e2 :: es3)).length + 1
          simp only [List.length_append, List.length_cons]
          omega
    · intro ms hsz
      cases ms with
      | nil => simp [jsizeMembs]
      | cons kv ms2 =>
        obtain ⟨k, v⟩ := kv
        have hsz2 : 1 + jsize v + jsizeMembs ms2 ≤ n + 1 := hsz
        have h1 : jsize v ≤ (jser v).length := ihv v (by omega)
        cases ms2 with
        | nil =>
          show 1 + jsize v + jsizeMembs ([] : List (Str × JVal))
            ≤ (jserStr k ++ ':' :: ' ' :: jser v).length + 1
          rw [show jsizeMembs ([] : List (Str × JVal)) = 0 from rfl]
          simp only [List.length_append, List.length_cons]
          omega
        | cons kv2 ms3 =>
          obtain ⟨k2, v2⟩ := kv2
          have h2 : jsizeMembs ((k2, v2) :: ms3)
              ≤ (jserMembs ((k2, v2) :: ms3)).length + 1 :=
            ihm ((k2, v2) :: ms3) (by omega)
          show 1 + jsize v + jsizeMembs ((k2, v2) :: ms3)
            ≤ (jserStr k ++ ':' :: ' ' :: jser v
               ++ ',' :: ' ' :: jserMembs ((k2, v2) :: ms3)).length + 1
          simp only [List.length_append, List.length_cons]
          omega

lemma natChars_last (m : Nat) :
    ∃ t d, d < 10 ∧ natChars m = t ++ [digitChar d] := by
  by_cases h0 : m = 0
  · exact ⟨[], 0, by norm_num, by rw [h0]; rfl⟩
  · rw [show natChars m = (Nat.digits 10 m).reverse.map digitChar from by
      unfold natChars; rw [if_neg h0]]
    cases hds : Nat.digits 10 m with
    | nil => exact absurd (Nat.digits_ne_nil_iff_ne_zero.mpr h0) (by rw [hds]; simp)
    | cons a as =>
      refine ⟨(as.reverse).map digitChar, a, ?_, ?_⟩
      · exact Nat.digits_lt_base (by norm_num)
          (by rw [hds]; exact List.mem_cons_self a as)
      · simp

lemma jser_last (v : JVal) : ∃ t d, jser v = t ++ [d] ∧ isWsB d = false := by
  cases v with
  | jnull => exact ⟨['n', 'u', 'l'], 'l', rfl, by decide⟩
  | jbool b =>
    cases b with
    | true => exact ⟨['t', 'r', 'u'], 'e', rfl, by decide⟩
    | false => exact ⟨['f', 'a', 'l', 's'], 'e', rfl, by decide⟩
  | jint n =>
    show ∃ t d, jserInt n = t ++ [d] ∧ isWsB d = false
    by_cases hn : n < 0
    · obtain ⟨t, d, hd, ht⟩ := natChars_last n.natAbs
      refine ⟨'-' :: t, digitChar d, ?_, digitChar_not_ws d hd⟩
      rw [show jserInt n = '-' :: natChars n.natAbs from by unfold jserInt; rw [if_pos hn],
        ht, List.cons_append]
    · obtain ⟨t, d, hd, ht⟩ := natChars_last n.toNat
      refine ⟨t, digitChar d, ?_, digitChar_not_ws d hd⟩
      rw [show jserInt n = natChars n.toNat from by unfold jserInt; rw [if_neg hn], ht]
  | jstr s =>
    exact ⟨'"' :: escStr s, '"', by show '"' :: escStr s ++ ['"'] = _; rfl, by decide⟩
  | jarr es =>
    exact ⟨'[' :: jserElems es, ']', by show '[' :: jserElems es ++ [']'] = _; rfl,
      by decide⟩
  | jobj ms =>
    exact ⟨'\x7b' :: jserMembs ms, '\x7d',
      by show '\x7b' :: jserMembs ms ++ ['\x7d'] = _; rfl, by decide⟩

lemma stripChars_jser (v : JVal) : stripChars (jser v) = jser v := by
  obtain ⟨c, cs, hcs, hws, _, _⟩ := jser_head v
  obtain ⟨t, d, htd, hdws⟩ := jser_last v
  have h1 : (jser v).dropWhile isWsB = jser v := by
    rw [hcs, List.dropWhile_cons, hws]
    simp
  have h2 : (jser v).reverse = d :: t.reverse := by
    rw [htd]
    simp
  have h3 : (d :: t.reverse).dropWhile isWsB = d :: t.reverse := by
    rw [List.dropWhile_cons, hdws]
    simp
  unfold stripChars
  rw [h1, h2, h3, ← h2, List.reverse_reverse]

lemma jparse_jser (v : JVal) : jparse (jser v) = some v := by
  have hsz : jsize v ≤ (jser v).length := (jsize_le_jser_len (jsize v)).1 v le_rfl
  have hpv : parseVal ((jser v).length + 1) (jser v ++ ([] : Str)) = some (v, ([] : Str)) :=
    (parse_jser ((jser v).length + 1)).1 v [] (by omega) trivial
  rw [List.append_nil] at hpv
  simp [jparse, hpv, skipWs]

/-- C7 (amended): the round trip through the designated tag pair holds for
every JSON-serializable value whose serialization does not itself contain the
closing tag case-insensitively; the lazy group then captures exactly the
serialized payload, stripping is the identity on it, and `json.loads` inverts
`json.dumps`. -/
theorem c7_tagged_round_trip (v : JVal)
    (h : containsSub closeTagS ((jser v).map Char.toLower) = false) :
    extractJsonFromTags (wrapJsonTags (jser v)) = Except.ok v := by
  have ho : openTagS.map Char.toLower = openTagS := by decide
  have hc : closeTagS.map Char.toLower = closeTagS := by decide
  have hmap : (wrapJsonTags (jser v)).map Char.toLower
      = openTagS ++ ((jser v).map Char.toLower ++ closeTagS) := by
    unfold wrapJsonTags
    simp [List.map_append, ho, hc]
  have hfind1 : strFindSub openTagS ((wrapJsonTags (jser v)).map Char.toLower)
      = some 0 := by
    rw [hmap]
    exact strFindSub_of_leadsWith _ _ (leadsWith_append _ _)
  have hnone : strFindSub closeTagS ((jser v).map Char.toLower) = Option.none := by
    cases hopt : strFindSub closeTagS ((jser v).map Char.toLower) with
    | none => rfl
    | some k =>
      rw [show containsSub closeTagS ((jser v).map Char.toLower)
        = (strFindSub closeTagS ((jser v).map Char.toLower)).isSome from rfl, hopt] at h
      simp at h
  have hdropmap : ((wrapJsonTags (jser v)).map Char.toLower).drop 6
      = (jser v).map Char.toLower ++ closeTagS := by
    rw [hmap]
    show (openTagS ++ ((jser v).map Char.toLower ++ closeTagS)).drop openTagS.length = _
    exact List.drop_left _ _
  have hfind2 : strFindSub closeTagS (((wrapJsonTags (jser v)).map Char.toLower).drop 6)
      = some ((jser v).length) := by
    rw [hdropmap, strFindSub_closeTag_append _ hnone]
    simp
  have hdrop : (wrapJsonTags (jser v)).drop 6 = jser v ++ closeTagS := by
    unfold wrapJsonTags
    rw [List.append_assoc]
    show (openTagS ++ (jser v ++ closeTagS)).drop openTagS.length = _
    exact List.drop_left _ _
  have htake : ((wrapJsonTags (jser v)).drop 6).take ((jser v).length) = jser v := by
    rw [hdrop]
    exact List.take_left _ _
  simp only [extractJsonFromTags, hfind1, Nat.zero_add, hfind2, htake,
    stripChars_jser, jparse_jser]

theorem c7_tagged_round_trip_witness :
    containsSub closeTagS
      ((jser (JVal.jobj [(['a'], JVal.jbool true)])).map Char.toLower) = false ∧
    extractJsonFromTags (wrapJsonTags (jser (JVal.jobj [(['a'], JVal.jbool true)])))
      = Except.ok (JVal.jobj [(['a'], JVal.jbool true)]) :=
  ⟨by decide, c7_tagged_round_trip (JVal.jobj [(['a'], JVal.jbool true)]) (by decide)⟩
